import Mathlib

/-
Verification of the BrogueCE SDL tile engine (platform/tiles.c, two close
variants of the same engine appear in the sources).  The definitions below are
a shallow embedding of that C file: machine integers become Nat or Int with
explicit reductions mod 2^64 where the C relies on uint64_t wrap-around,
double arithmetic on coordinate maps becomes exact rational arithmetic, and
the transcendental sine used by the wall-top wave painter becomes Real.sin.
The C function and variable names are kept wherever Lean allows it.
-/

set_option maxRecDepth 200000

namespace Tiles

/- Constants from the top of tiles.c. -/

def PNG_WIDTH : ℕ := 2048
def PNG_HEIGHT : ℕ := 5568
def TILE_WIDTH : ℕ := 128
def TILE_HEIGHT : ℕ := 232
def TILE_ROWS : ℕ := 24
def TILE_COLS : ℕ := 16
def TEXT_X_HEIGHT : ℕ := 100
def TEXT_BASELINE : ℕ := 46
def MAX_TILE_SIZE : ℕ := 64

/-
TileProcessing: how each tile should be processed
  - s = stretch: tile stretches to fill the space
  - f = fit: preserve aspect ratio (but tile can stretch up to 20 percent)
  - t = text: characters must line up vertically (max. stretch 40 percent)
  - # = same as t but allow vertical sub-pixel alignment
-/

def TileProcessingRow (row : ℕ) : String :=
  match row with
  | 0  => "ffffffffffffffff"
  | 1  => "ffffffffffffffff"
  | 2  => "#t##########t#t#"
  | 3  => "tttttttttttt###t"
  | 4  => "#ttttttttttttttt"
  | 5  => "ttttttttttt#####"
  | 6  => "#ttttttttttttttt"
  | 7  => "ttttttttttt#####"
  | 8  => "################"
  | 9  => "################"
  | 10 => "################"
  | 11 => "################"
  | 12 => "tttttttttttttttt"
  | 13 => "ttttttt#tttttttt"
  | 14 => "tttttttttttttttt"
  | 15 => "ttttttt#tttttttt"
  | 16 => "ffsfsfsffsssssss"
  | 17 => "ssfsfsffffffffff"
  | 18 => "fffffffffffffsff"
  | 19 => "ffffffffffffffff"
  | 20 => "fsssfffffffffffs"
  | 21 => "fsffffffffffffff"
  | 22 => "ffffssssffssffff"
  | 23 => "ffffsfffffssssff"
  | _  => "ffffffffffffffff"

def TileProcessing (row column : ℕ) : Char :=
  ((TileProcessingRow row).toList).getD column 'f'

/-
The source PNG after conversion to a 32-bit format; each pixel is encoded as
0xffBBGGRR and the engine only ever tests the low byte (the red channel).
We model the surface as the function from the linear pixel index used by the
C pointer arithmetic to the 32-bit pixel value; pix mod 256 is the low byte.
-/

abbrev Png : Type := ℕ → ℕ

def pixelIndex (row column x y : ℕ) : ℕ :=
  (x + column * TILE_WIDTH) + (y + row * TILE_HEIGHT) * PNG_WIDTH

/- One step of the getPadding scan: does row p or row TILE_HEIGHT - p - 1 of
the cell contain a pixel whose tested byte is nonzero? -/

def paddingRowHit (png : Png) (row column p : ℕ) : Bool :=
  (List.range TILE_WIDTH).any fun x =>
    (png (pixelIndex row column x p) % 256 != 0) ||
    (png (pixelIndex row column x (TILE_HEIGHT - p - 1)) % 256 != 0)

/- getPadding from tiles.c: scan padding = 0, 1, ... while padding is less
than TILE_HEIGHT / 4; return the first padding whose top or bottom scan row
contains a non-transparent pixel, and TILE_HEIGHT / 4 if none does.  The
fuel argument counts the remaining loop iterations. -/

def getPaddingAux (png : Png) (row column : ℕ) : ℕ → ℕ → ℕ
  | 0, p => p
  | n + 1, p => if paddingRowHit png row column p then p else
      getPaddingAux png row column n (p + 1)

def getPadding (png : Png) (row column : ℕ) : ℕ :=
  getPaddingAux png row column (TILE_HEIGHT / 4) 0

/- isTileEmpty from tiles.c: true iff every pixel of the cell has a zero
tested byte. -/

def isTileEmpty (png : Png) (row column : ℕ) : Bool :=
  (List.range TILE_HEIGHT).all fun y =>
    (List.range TILE_WIDTH).all fun x =>
      png (pixelIndex row column x y) % 256 == 0

/-
Compositor arithmetic (updateScreen / getTexture).  The destination cell
rectangle for screen cell x is cut out of the output by integer division,
and the texture variant is selected by comparing the cell size with the
base tile size outputWidth / COLS (resp. outputHeight / ROWS).
-/

def destTileWidth (outputWidth cols x : ℕ) : ℕ :=
  (x + 1) * outputWidth / cols - x * outputWidth / cols

def destTileHeight (outputHeight rows y : ℕ) : ℕ :=
  (y + 1) * outputHeight / rows - y * outputHeight / rows

/- getTexture from tiles.c: Textures[(w > baseW ? 1 : 0) + (h > baseH ? 2 : 0)]. -/

def getTextureIndex (tileWidth tileHeight baseTileWidth baseTileHeight : ℕ) : ℕ :=
  (if baseTileWidth < tileWidth then 1 else 0) +
  (if baseTileHeight < tileHeight then 2 else 0)

/- Tile dimensions of texture variant i, from loadTiles:
Textures[0] is N x M, Textures[1] is (N+1) x M, Textures[2] is N x (M+1),
Textures[3] is (N+1) x (M+1). -/

def variantTileWidth (baseTileWidth i : ℕ) : ℕ :=
  baseTileWidth + (if i = 1 ∨ i = 3 then 1 else 0)

def variantTileHeight (baseTileHeight i : ℕ) : ℕ :=
  baseTileHeight + (if i = 2 ∨ i = 3 then 1 else 0)

/-
The shift table and its binary cache file.

tileShifts is int8_t[TILE_ROWS][TILE_COLS][2][MAX_TILE_SIZE][3]; init writes
it to assets/tiles.bin with a single fwrite of sizeof(tileShifts) bytes and
reads it back with a single fread.  We model the table as a function from
the five indices to a signed value, and the file as the list of bytes the
memory dump produces: C row-major layout, one byte per int8_t entry in twos
complement.
-/

abbrev ShiftTable : Type :=
  Fin TILE_ROWS → Fin TILE_COLS → Fin 2 → Fin MAX_TILE_SIZE → Fin 3 → ℤ

def SHIFT_TABLE_BYTES : ℕ := TILE_ROWS * TILE_COLS * 2 * MAX_TILE_SIZE * 3

/- Row-major linear offset of an entry inside the struct dump. -/

def shiftOffset (r : Fin TILE_ROWS) (c : Fin TILE_COLS) (a : Fin 2)
    (s : Fin MAX_TILE_SIZE) (k : Fin 3) : ℕ :=
  (((r.val * TILE_COLS + c.val) * 2 + a.val) * MAX_TILE_SIZE + s.val) * 3 + k.val

/- Twos-complement encoding of an int8_t value as the byte stored in memory,
and the decoding fread performs when the byte is interpreted as int8_t. -/

def int8ToByte (z : ℤ) : ℕ := (z % 256).toNat

def byteToInt8 (b : ℕ) : ℤ := if b < 128 then (b : ℤ) else (b : ℤ) - 256

/- fwrite(tileShifts, 1, sizeof(tileShifts), file): the raw dump. -/

def writeShiftCache (t : ShiftTable) : List ℕ :=
  List.ofFn fun i : Fin SHIFT_TABLE_BYTES =>
    int8ToByte (t ⟨i.val / (TILE_COLS * 2 * MAX_TILE_SIZE * 3), by
                    have h := i.isLt
                    simp only [SHIFT_TABLE_BYTES, TILE_ROWS, TILE_COLS, MAX_TILE_SIZE] at h ⊢
                    omega⟩
                  ⟨i.val / (2 * MAX_TILE_SIZE * 3) % TILE_COLS, by
                    simp only [TILE_COLS]
                    omega⟩
                  ⟨i.val / (MAX_TILE_SIZE * 3) % 2, by omega⟩
                  ⟨i.val / 3 % MAX_TILE_SIZE, by
                    simp only [MAX_TILE_SIZE]
                    omega⟩
                  ⟨i.val % 3, by omega⟩)

/- fread(tileShifts, 1, sizeof(tileShifts), file): wholesale reload. -/

def readShiftCache (bytes : List ℕ) : ShiftTable :=
  fun r c a s k => byteToInt8 (bytes.getD (shiftOffset r c a s k) 0)

/-
The pseudo-random generator used by the floor-dust painter.  uint64_t
arithmetic is modeled as Nat reduced mod 2^64; the function returns the
xorshift64star product together with the updated state, exactly as the C
function returns one value and writes the other through its pointer.
-/

def xorshift64s (state : ℕ) : ℕ × ℕ :=
  let s := state % 2 ^ 64
  let x1 := s ^^^ (s >>> 12)
  let x2 := (x1 ^^^ (x1 <<< 25)) % 2 ^ 64
  let x3 := x2 ^^^ (x2 >>> 27)
  (x3 * 0x2545f4914f6cdd1d % 2 ^ 64, x3)

/- noise from tiles.c: (xorshift64s(state) >> 54) + 0x100000280.  The
constant already contains the count-one bit 0x100000000 of the accumulator
encoding, so every noise sample is a nonzero accumulator entry with sample
count 1. -/

def noise (state : ℕ) : ℕ × ℕ :=
  let r := xorshift64s state
  ((r.1 >>> 54) + 0x100000280, r.2)

/-
Accumulator buffers.  The C code uses a malloc-ed flat uint64_t array
indexed by y * tileWidth + x with raw pointer arithmetic (including the
p - tileWidth - 1 style neighbor offsets of the dust painter), so the model
keeps a flat buffer: a function from the integer linear index to the entry.
-/

abbrev Accum : Type := ℤ → ℕ

def zeroAccum : Accum := fun _ => 0

/- One edge-lattice write of the dust painter: draw a noise sample and store
it at index p, threading the generator state. -/

def writeNoiseAt (gs : Accum × ℕ) (p : ℤ) : Accum × ℕ :=
  let r := noise gs.2
  (fun q => if q = p then r.1 else gs.1 q, r.2)

/- The four edge-stitching loops of the floor-dust painter, in program
order: row 0 every 4th column from 0, column 0 every 4th row from 0, row
h + 1 every 4th column from 2, column w + 1 every 4th row from 2. -/

def dustEdges (tileW w h : ℕ) (gs : Accum × ℕ) : Accum × ℕ :=
  let gs1 := ((List.range w).filter fun x => x % 4 = 0).foldl
    (fun a (x : ℕ) => writeNoiseAt a (x : ℤ)) gs
  let gs2 := ((List.range h).filter fun y => y % 4 = 0).foldl
    (fun a (y : ℕ) => writeNoiseAt a ((y : ℤ) * tileW)) gs1
  let gs3 := ((List.range w).filter fun x => x % 4 = 2).foldl
    (fun a (x : ℕ) => writeNoiseAt a (((h : ℤ) + 1) * tileW + x)) gs2
  ((List.range h).filter fun y => y % 4 = 2).foldl
    (fun a (y : ℕ) => writeNoiseAt a ((y : ℤ) * tileW + ((w : ℤ) + 1))) gs3

/- The Fisher-Yates shuffle of the interior index array: idx holds
0 .. w*h - 1; for each i the generator picks j in [i, w*h) and the entries
at i and j are swapped. -/

def fisherYates (wh : ℕ) (state : ℕ) : List ℕ × ℕ :=
  (List.range (wh - 1)).foldl
    (fun (ls : List ℕ × ℕ) (i : ℕ) =>
      let r := xorshift64s ls.2
      let j := r.1 % (wh - i) + i
      let a := ls.1.getD i 0
      let b := ls.1.getD j 0
      ((ls.1.set i b).set j a, r.2))
    (List.range wh, state)

/- The interior pass of the floor-dust painter: walk the shuffled indices;
for each, light pixel (1 + e mod w, 1 + e / w) only when all 8 neighbors in
the flat buffer are still zero (the generator advances only on a lit
pixel, because noise is called only inside the branch). -/

def dustInteriorStep (tileW w : ℕ) (a : Accum × ℕ) (e : ℕ) : Accum × ℕ :=
  let x : ℤ := 1 + (e % w : ℕ)
  let y : ℤ := 1 + (e / w : ℕ)
  let p : ℤ := x + y * tileW
  if a.1 (p + 1) = 0 ∧ a.1 (p - 1) = 0 ∧
     a.1 (p + tileW) = 0 ∧ a.1 (p + tileW + 1) = 0 ∧ a.1 (p + tileW - 1) = 0 ∧
     a.1 (p - tileW) = 0 ∧ a.1 (p - tileW + 1) = 0 ∧ a.1 (p - tileW - 1) = 0
  then
    let r := noise a.2
    (fun q => if q = p then r.1 else a.1 q, r.2)
  else a

def dustInterior (tileW w : ℕ) (idx : List ℕ) (gs : Accum × ℕ) : Accum × ℕ :=
  idx.foldl (dustInteriorStep tileW w) gs

/- The eight neighbor offsets tested by the interior pass, in the order of
the C condition: p+1, p-1, p+W, p+W+1, p+W-1, p-W, p-W+1, p-W-1. -/

def neighborOffsets (tileW : ℕ) : List ℤ :=
  [1, -1, (tileW : ℤ), (tileW : ℤ) + 1, (tileW : ℤ) - 1,
   -(tileW : ℤ), -(tileW : ℤ) + 1, -(tileW : ℤ) - 1]

/- The flat-buffer indices of the dust interior region: column 1 .. w,
row 1 .. h of a tileW-wide buffer (w = tileW - 2, h = tileH - 2). -/

def dustInteriorPos (tileW tileH : ℕ) (p : ℤ) : Prop :=
  ∃ x y : ℕ, 1 ≤ x ∧ x ≤ tileW - 2 ∧ 1 ≤ y ∧ y ≤ tileH - 2 ∧
    p = (x : ℤ) + (y : ℤ) * tileW

/- The whole floor-dust painter.  It receives the ambient generator state
the caller happens to hold and immediately overwrites it with the fixed
seed 1234567, mirroring the local uint64_t state = 1234567 of the C code:
the parameter is dead, which is exactly the reseeding property. -/

def dustFill (rngStateIn : ℕ) (tileW tileH : ℕ) (g : Accum) : Accum :=
  let w := tileW - 2
  let h := tileH - 2
  let state : ℕ := 1234567
  let gs1 := dustEdges tileW w h (g, state)
  let fy := fisherYates (w * h) gs1.2
  (dustInterior tileW w fy.1 (gs1.1, fy.2)).1

/-
The wall-top wave painter.  The C loop paints rows top-down and stops (for
the two half-height cells, rows 16 and 22 of the atlas) at the first row
that either lies below tileHeight / 2 or whose column-0 entry has nonzero
low 32 bits; since rows are painted in increasing order and the break test
reads the column-0 entry of a row that has not been painted yet, the break
tests only ever see the pre-existing buffer, so the loop is equivalent to
the pointwise fill below.  The sine is modeled with Real.sin; the cast
(uint64_t) of the rounded nonnegative double is toNat of round.
-/

def waveBreak (g : Accum) (row tileW tileH yy : ℕ) : Bool :=
  (row != 21) && (decide (tileH / 2 < yy) || (g ((yy : ℤ) * tileW) % 2 ^ 32 != 0))

def wavePainted (g : Accum) (row tileW tileH y : ℕ) : Bool :=
  decide (y < tileH) && (List.range (y + 1)).all fun yy => !waveBreak g row tileW tileH yy

noncomputable def waveEntry (tileW tileH numHorizWaves numVertWaves x y : ℕ) : ℕ :=
  let value : ℝ := Real.sin (2 * Real.pi *
    ((x : ℝ) / tileW * numHorizWaves + (y : ℝ) / tileH * numVertWaves)) / 2 + 1 / 2
  2 ^ 32 + (round ((255 : ℝ) * 255 * value * value)).toNat

noncomputable def waveFill (g : Accum) (row tileW tileH numHorizWaves numVertWaves : ℕ) :
    Accum :=
  fun p =>
    if 0 ≤ p ∧ p < (tileW : ℤ) * tileH then
      if wavePainted g row tileW tileH (p / (tileW : ℤ)).toNat then
        waveEntry tileW tileH numHorizWaves numVertWaves
          (p % (tileW : ℤ)).toNat (p / (tileW : ℤ)).toNat
      else g p
    else g p

/- Wave counts from the head of prepareTile: max(2, min(6, round(fitWidth
* .25))) and max(2, min(11, round(fitHeight * .25))).  round(n * 0.25) on a
nonnegative integer n is (n + 2) / 4 in integer arithmetic: n / 4 exactly
when n mod 4 is 0 or 1, and rounded up (away from zero) at the .5 and .75
fractions. -/

def numHorizWaves (fitWidth : ℕ) : ℕ := max 2 (min 6 ((fitWidth + 2) / 4))

def numVertWaves (fitHeight : ℕ) : ℕ := max 2 (min 11 ((fitHeight + 2) / 4))

/-
Conversion of one accumulator entry to the output alpha, from the tail of
prepareTile.  The entry packs 0xCCCCCCCCSSSSSSSS: count in the high 32
bits, sum of squared luminances in the low 32 bits; value / 2^32 and
value mod 2^32 are the C shifts and masks.  round(sqrt(v)) for an integer
v is (floor(sqrt(4 v)) + 1) / 2 (round half up never ties on sqrt of an
integer), and floor(sqrt(4 v)) + 1 is the number of k with k * k <= 4 * v,
counted over k < 512 since 4 * v <= 4 * 64770 < 512 * 512 in the branch
where the square root is taken; this kernel-computable form avoids the
well-founded recursion of Nat.sqrt. -/

def natRoundSqrt (v : ℕ) : ℕ :=
  ((Finset.range 512).filter fun k => k * k ≤ 4 * v).card / 2

def tileValueToAlpha (processing : Char) (v : ℕ) : ℕ :=
  let avg := if v / 2 ^ 32 ≠ 0 then (v % 2 ^ 32) / (v / 2 ^ 32) else 0
  let avg2 := if processing = 't' ∨ processing = '#' then
      (if avg < 255 * 255 / 2 then avg / 2 else avg * 3 / 2 - 255 * 255 / 2)
    else avg
  if avg2 = 0 then 0 else if 64770 < avg2 then 255 else natRoundSqrt avg2

/- The RGBA word written for one destination pixel: (alpha << 24) |
0xffffff, with full white RGB; alpha < 256 so the or is addition on
disjoint bit ranges. -/

def pixelWord (alpha : ℕ) : ℕ := alpha * 2 ^ 24 + 0xffffff

/-
Coordinate maps.  The C code computes the five map stops in double
arithmetic; every quantity involved is a small rational (integer stops,
glyph sizes up to 64, shifts in tenths), so the model uses exact rational
arithmetic.  The (int) conversions of C truncate toward zero; C round
rounds half away from zero, which on the nonnegative values rounded here
agrees with the Mathlib round (half up).
-/

/- Truncation toward zero of a rational, the double-to-int conversion. -/

def ratTrunc (q : ℚ) : ℤ := q.num.tdiv q.den

/- The five map stops in destination space. -/

structure Maps5 where
  m0 : ℚ
  m1 : ℚ
  m2 : ℚ
  m3 : ℚ
  m4 : ℚ

/- Per-cell shift entries: three signed tenths-of-a-pixel values. -/

abbrev Shifts3 : Type := ℤ × ℤ × ℤ

/- The shift lookup of prepareTile: out-of-table glyph sizes use the local
noShifts = {0,0,0}; otherwise the entry for size glyphLen is at row index
glyphLen - 1 of the per-axis table. -/

def lookupShifts (sh : ℕ → ℕ → Shifts3) (axis glyphLen : ℕ) : Shifts3 :=
  if MAX_TILE_SIZE < glyphLen then (0, 0, 0) else sh axis (glyphLen - 1)

/- Horizontal maps: stops at 0, TILE_WIDTH/5, TILE_WIDTH/2, TILE_WIDTH*4/5
and TILE_WIDTH of the source axis; map1 is nudged by shifts[0], map2 by
shifts[2], map3 by shifts[1]; map0 gets a one-pixel bonus when
shifts[0] + shifts[1] is negative. -/

def horizStop1 : ℕ := TILE_WIDTH / 5
def horizStop2 : ℕ := TILE_WIDTH / 2
def horizStop3 : ℕ := TILE_WIDTH * 4 / 5

def horizMaps (fitWidth glyphWidth : ℕ) (sh : Shifts3) : Maps5 :=
  let bonus : ℤ := if sh.1 + sh.2.1 < 0 then 1 else 0
  let m0 : ℚ := (((fitWidth : ℤ) - (glyphWidth : ℤ) + bonus).tdiv 2 : ℤ)
  { m0 := m0
    m1 := m0 + (glyphWidth : ℚ) * (horizStop1 : ℚ) / (TILE_WIDTH : ℚ) + (sh.1 : ℚ) / 10
    m2 := m0 + (glyphWidth : ℚ) * (horizStop2 : ℚ) / (TILE_WIDTH : ℚ) + (sh.2.2 : ℚ) / 10
    m3 := m0 + (glyphWidth : ℚ) * (horizStop3 : ℚ) / (TILE_WIDTH : ℚ) + (sh.2.1 : ℚ) / 10
    m4 := m0 + (glyphWidth : ℚ) }

/- Vertical stops: text cells pin top, one third of the way to the x-height
line, the x-height line and the baseline measured from the bottom edge;
all other cells use the padded 0, 20, 50, 80, 100 percent stops. -/

def vertStops (processing : Char) (padding : ℕ) : ℕ × ℕ × ℕ × ℕ × ℕ :=
  if processing = 't' then
    let s4 := TILE_HEIGHT
    let s3 := s4 - TEXT_BASELINE
    let s2 := s3 - TEXT_X_HEIGHT
    (0, s2 / 3, s2, s3, s4)
  else
    let s0 := padding
    let s4 := TILE_HEIGHT - padding
    (s0, s0 + (s4 - s0) / 5, s0 + (s4 - s0) / 2, s0 + (s4 - s0) * 4 / 5, s4)

/- Vertical maps before the text snap and before the shift nudges. -/

def vertMapsBase (stops : ℕ × ℕ × ℕ × ℕ × ℕ) (fitHeight glyphHeight : ℕ) : Maps5 :=
  let s0 := stops.1
  let s1 := stops.2.1
  let s2 := stops.2.2.1
  let s3 := stops.2.2.2.1
  let s4 := stops.2.2.2.2
  let m0 : ℚ := (((fitHeight : ℤ) - (glyphHeight : ℤ)).tdiv 2 : ℤ)
  { m0 := m0
    m1 := m0 + (glyphHeight : ℚ) * ((s1 : ℚ) - (s0 : ℚ)) / ((s4 : ℚ) - (s0 : ℚ))
    m2 := m0 + (glyphHeight : ℚ) * ((s2 : ℚ) - (s0 : ℚ)) / ((s4 : ℚ) - (s0 : ℚ))
    m3 := m0 + (glyphHeight : ℚ) * ((s3 : ℚ) - (s0 : ℚ)) / ((s4 : ℚ) - (s0 : ℚ))
    m4 := m0 + (glyphHeight : ℚ) }

/- The text-mode snap: align stops 2 and 3 with output pixels.  map3 first
absorbs the rounding correction of map2, map2 is rounded, map3 is rounded
but kept at least one pixel below map2, and map1 is re-derived as one third
of the way from map0 to the snapped map2. -/

def tSnap (m : Maps5) : Maps5 :=
  let m3a := m.m3 + ((round m.m2 : ℤ) : ℚ) - m.m2
  let m2a : ℚ := ((round m.m2 : ℤ) : ℚ)
  let m3b : ℚ := max (m2a + 1) ((round m3a : ℤ) : ℚ)
  { m0 := m.m0, m1 := m.m0 + (m2a - m.m0) / 3, m2 := m2a, m3 := m3b, m4 := m.m4 }

/- The vertical shift nudges, applied after the text snap: map1 gets
shifts[0], map2 gets shifts[2], map3 gets shifts[1], in tenths. -/

def addVertShifts (m : Maps5) (sh : Shifts3) : Maps5 :=
  { m0 := m.m0
    m1 := m.m1 + (sh.1 : ℚ) / 10
    m2 := m.m2 + (sh.2.2 : ℚ) / 10
    m3 := m.m3 + (sh.2.1 : ℚ) / 10
    m4 := m.m4 }

/- The full vertical map construction of prepareTile. -/

def vertMaps (processing : Char) (padding fitHeight glyphHeight : ℕ) (sh : Shifts3) :
    Maps5 :=
  let base := vertMapsBase (vertStops processing padding) fitHeight glyphHeight
  addVertShifts (if processing = 't' then tSnap base else base) sh

/- Linear interpolation of one segment, truncated to an int as in the C
assignment to the scaled arrays. -/

def segVal (ma mb : ℚ) (sa sb x : ℕ) : ℤ :=
  ratTrunc (ma + (mb - ma) * ((x : ℚ) - (sa : ℚ)) / ((sb : ℚ) - (sa : ℚ)))

/- scaledX: four segments covering all of 0 .. TILE_WIDTH - 1. -/

def scaledXFun (m : Maps5) (x : ℕ) : ℤ :=
  if x < horizStop1 then segVal m.m0 m.m1 0 horizStop1 x
  else if x < horizStop2 then segVal m.m1 m.m2 horizStop1 horizStop2 x
  else if x < horizStop3 then segVal m.m2 m.m3 horizStop2 horizStop3 x
  else segVal m.m3 m.m4 horizStop3 TILE_WIDTH x

/- scaledY: rows outside [stop0, stop4) map to -1 (not mapped). -/

def scaledYFun (stops : ℕ × ℕ × ℕ × ℕ × ℕ) (m : Maps5) (y : ℕ) : ℤ :=
  let s0 := stops.1
  let s1 := stops.2.1
  let s2 := stops.2.2.1
  let s3 := stops.2.2.2.1
  let s4 := stops.2.2.2.2
  if y < s0 then -1
  else if y < s1 then segVal m.m0 m.m1 s0 s1 y
  else if y < s2 then segVal m.m1 m.m2 s1 s2 y
  else if y < s3 then segVal m.m2 m.m3 s2 s3 y
  else if y < s4 then segVal m.m3 m.m4 s3 s4 y
  else -1

/-
Glyph sizing, from the head of prepareTile.  The double literals 1.2 and
1.4 are modeled by the exact rationals 6/5 and 7/5 (the doubles differ from
these by less than 2^-52, far below the rounding granularity of the sizes
involved).  All rounded quantities are nonnegative. -/

def glyphSize (processing : Char) (optimizing : Bool) (padding fitW fitH tileW tileH : ℕ) :
    ℕ × ℕ × ℕ × ℕ :=
  if processing = 's' ∨ optimizing then (tileW, tileH, tileW, tileH)
  else if processing = 'f' then
    let stretch : ℚ := max 1 (min (6 / 5)
      ((fitW : ℚ) * (TILE_HEIGHT : ℚ) / ((fitH : ℚ) * (TILE_WIDTH : ℚ))))
    let gW := max 1 (min fitW (round ((6 / 5 : ℚ) * (fitH : ℚ) * (TILE_WIDTH : ℚ) /
      ((TILE_HEIGHT : ℚ) - 2 * (padding : ℚ)))).toNat)
    let gH := max 1 (min fitH (round (stretch * (fitW : ℚ) *
      ((TILE_HEIGHT : ℚ) - 2 * (padding : ℚ)) / (TILE_WIDTH : ℚ))).toNat)
    (gW, gH, fitW, fitH)
  else
    let gW := max 1 (min fitW (round ((7 / 5 : ℚ) * (fitH : ℚ) * (TILE_WIDTH : ℚ) /
      (TILE_HEIGHT : ℚ))).toNat)
    let gH := max 1 (min fitH (round ((7 / 5 : ℚ) * (fitW : ℚ) * (TILE_HEIGHT : ℚ) /
      (TILE_WIDTH : ℚ))).toNat)
    (gW, gH, fitW, fitH)

/-
The downsampling loop.  For each source row y0, if its mapped destination
row y1 is inside the tile, every source pixel of the row adds
luminance^2 | 0x100000000 to the accumulator cell at y1 * tileW +
scaledX[x] (value^2 <= 255^2 < 2^32, so the or is addition); the C loop
adds the 128 samples of a row one by one, which is the pointwise sum below.
If the previous source row mapped exactly two rows above, the skipped row
in between is interpolated as the cell-wise sum of its two neighbor rows
(dst[x1 - tileWidth] = dst[x1 - 2 tileWidth] + dst[x1]).  The C code reads
scaledY[y0 - 1], which for y0 = 0 is an out-of-bounds stack read; the model
guards the interpolation with 1 <= y0. -/

def downscaleRow (lum : ℕ → ℕ → ℕ) (scaledX : ℕ → ℤ) (tileW : ℕ) (g : Accum)
    (y0 : ℕ) (y1 : ℤ) : Accum :=
  fun p => g p +
    ∑ x ∈ (Finset.range TILE_WIDTH).filter (fun x => y1 * tileW + scaledX x = p),
      ((lum x y0) ^ 2 + 2 ^ 32)

def interpRow (tileW : ℕ) (g : Accum) (y1 : ℤ) : Accum :=
  fun p =>
    if (y1 - 1) * tileW ≤ p ∧ p < y1 * tileW then g (p - tileW) + g (p + tileW)
    else g p

def downscaleStep (lum : ℕ → ℕ → ℕ) (scaledX scaledY : ℕ → ℤ) (tileW tileH : ℕ)
    (g : Accum) (y0 : ℕ) : Accum :=
  let y1 := scaledY y0
  if 0 ≤ y1 ∧ y1 < (tileH : ℤ) then
    let g1 := downscaleRow lum scaledX tileW g y0 y1
    if 2 ≤ y1 ∧ 1 ≤ y0 ∧ scaledY (y0 - 1) = y1 - 2 then interpRow tileW g1 y1 else g1
  else g

def downscaleAccumN (lum : ℕ → ℕ → ℕ) (scaledX scaledY : ℕ → ℤ) (tileW tileH : ℕ) :
    ℕ → Accum
  | 0 => zeroAccum
  | n + 1 => downscaleStep lum scaledX scaledY tileW tileH
      (downscaleAccumN lum scaledX scaledY tileW tileH n) n

def downscaleAccum (lum : ℕ → ℕ → ℕ) (scaledX scaledY : ℕ → ℤ) (tileW tileH : ℕ) :
    Accum :=
  downscaleAccumN lum scaledX scaledY tileW tileH TILE_HEIGHT

/-
prepareTile.  Parameters mirror the C call and the statics it reads:
png is the atlas surface, sh the per-cell slice of tileShifts (axis, size
index, three entries), padding the tilePadding entry, tileEmpty the
tileEmpty entry, baseTileWidth and baseTileHeight the current base tile
size statics (C ints, -1 before the first load), tileW and tileH the
destination tile size, and rngState the ambient generator state a caller
could carry (the dust painter overwrites it).  The result is the final
accumulator buffer; the blur return value (a double accumulated only in
calibration mode) is not modeled, the optimizer claims treat the blur
objective as an abstract function. -/

noncomputable def prepareTileValues (png : Png) (sh : ℕ → ℕ → Shifts3) (padding : ℕ)
    (tileEmpty : Bool) (baseTileWidth baseTileHeight : ℤ) (tileW tileH row column : ℕ)
    (optimizing : Bool) (rngState : ℕ) : Accum :=
  let processing := TileProcessing row column
  let fitW0 := (max 1 baseTileWidth).toNat
  let fitH0 := (max 1 baseTileHeight).toNat
  let base : Accum :=
    if tileEmpty then zeroAccum
    else
      let gs := glyphSize processing optimizing padding fitW0 fitH0 tileW tileH
      let glyphW := gs.1
      let glyphH := gs.2.1
      let fitW := gs.2.2.1
      let fitH := gs.2.2.2
      let hm := horizMaps fitW glyphW (lookupShifts sh 0 glyphW)
      let vm := vertMaps processing padding fitH glyphH (lookupShifts sh 1 glyphH)
      let lum := fun x y => png (pixelIndex row column x y) % 256
      downscaleAccum lum (scaledXFun hm) (scaledYFun (vertStops processing padding) vm)
        tileW tileH
  let afterDust : Accum :=
    if row = 20 ∧ column = 2 ∧ tileEmpty = true ∧ 2 < tileW ∧ 2 < tileH ∧
       optimizing = false
    then dustFill rngState tileW tileH base else base
  if (row = 16 ∧ column = 2 ∨ row = 21 ∧ column = 1 ∨ row = 22 ∧ column = 4) ∧
     optimizing = false
  then waveFill afterDust row tileW tileH (numHorizWaves fitW0) (numVertWaves fitH0)
  else afterDust

/- The RGBA word prepareTile writes for destination pixel (x, y) of the
cell: the accumulator entry at y * tileW + x, averaged, text-thinned for
text cells, gamma-compressed to alpha. -/

noncomputable def prepareTilePixel (png : Png) (sh : ℕ → ℕ → Shifts3) (padding : ℕ)
    (tileEmpty : Bool) (baseTileWidth baseTileHeight : ℤ) (tileW tileH row column : ℕ)
    (optimizing : Bool) (rngState : ℕ) (x y : ℕ) : ℕ :=
  pixelWord (tileValueToAlpha (TileProcessing row column)
    (prepareTileValues png sh padding tileEmpty baseTileWidth baseTileHeight
      tileW tileH row column optimizing rngState ((y : ℤ) * tileW + x)))

/-
The Shift Optimizer (optimizeTiles).  The search structure is modeled
exactly; the blur objective - the double prepareTile returns in calibration
mode - is abstracted as a function from the three shift entries being
searched to an integer-valued score (its floating-point value only ever
enters the search through order comparisons).  The C initial bestResult is
the double 1e20, kept as the literal 10^20.
-/

def getShiftIdx (s : Shifts3) (idx : ℕ) : ℤ :=
  match idx with
  | 0 => s.1
  | 1 => s.2.1
  | _ => s.2.2

def setShiftIdx (s : Shifts3) (idx : ℕ) (v : ℤ) : Shifts3 :=
  match idx with
  | 0 => (v, s.2.1, s.2.2)
  | 1 => (s.1, v, s.2.2)
  | _ => (s.1, s.2.1, v)

/- shifts[2] = (shifts[0] + shifts[1]) / 2 with C int division (truncation
toward zero). -/

def deriveMid (s : Shifts3) : Shifts3 := (s.1, s.2.1, (s.1 + s.2.1).tdiv 2)

/- The shift vector actually probed when the search writes v into slot idx:
for the coupled (text-mode horizontal) searches the third entry is
re-derived after every write. -/

def probeConfig (coupled : Bool) (s : Shifts3) (idx : ℕ) (v : ℤ) : Shifts3 :=
  let s1 := setShiftIdx s idx v
  if coupled then deriveMid s1 else s1

/- midShift = (idx == 2 ? (shifts[0] + shifts[1]) / 2 : 0). -/

def midShift (s : Shifts3) (idx : ℕ) : ℤ :=
  if idx = 2 then (s.1 + s.2.1).tdiv 2 else 0

/- The 11 probed values midShift - 5 .. midShift + 5, in loop order. -/

def probeList (mid : ℤ) : List ℤ :=
  (List.range 11).map fun k : ℕ => mid - 5 + (k : ℤ)

/- The running (bestResult, bestShift) pair of the probe loop: update on
strict improvement only. -/

def probeFold (f : ℤ → ℤ) (l : List ℤ) (acc : ℤ × ℤ) : ℤ × ℤ :=
  l.foldl (fun b v => if f v < b.1 then (f v, v) else b) acc

/- One step of the coordinate descent: probe the window, keep the first
strict improvement over the running best (initially 1e20 with bestShift 0),
then store the best shift (re-deriving the coupled third entry). -/

def stepIdx (B : Shifts3 → ℤ) (coupled : Bool) (s : Shifts3) (idx : ℕ) : Shifts3 :=
  let best := probeFold (fun v => B (probeConfig coupled s idx v))
    (probeList (midShift s idx)) (10 ^ 20, 0)
  probeConfig coupled s idx best.2

def runSteps (B : Shifts3 → ℤ) (coupled : Bool) (steps : List ℕ) (s : Shifts3) :
    Shifts3 :=
  steps.foldl (fun s idx => stepIdx B coupled s idx) s

/- Three passes over the free parameters 0 .. numIdx - 1. -/

def optimizerSteps (numIdx : ℕ) : List ℕ :=
  (List.replicate 3 (List.range numIdx)).flatten

/- The per-cell, per-axis, per-size search.  Horizontally, text cells
search 2 free parameters with the third derived (coupled); everything else
searches all 3.  Vertically, t cells search only parameter 0 and nothing
is coupled. -/

def searchOneSize (B : Shifts3 → ℤ) (processing : Char) (axis : ℕ) (s0 : Shifts3) :
    Shifts3 :=
  let coupled := axis = 0 ∧ (processing = 't' ∨ processing = '#')
  let numIdx := if axis = 0 then (if processing = 't' ∨ processing = '#' then 2 else 3)
    else (if processing = 't' then 1 else 3)
  runSteps B coupled (optimizerSteps numIdx) s0

/- The per-cell slice of optimizeTiles.  A cell is skipped if and only if
its tileEmpty flag is set; otherwise every width 5 .. 64 (table index
4 .. 63) is searched on the horizontal axis and every height 7 .. 64
(table index 6 .. 63) on the vertical axis, each size touching only its
own three table entries.  B gives the blur objective for one (axis, size
index) search. -/

def optimizeCellShifts (tileEmpty : Bool) (processing : Char)
    (B : ℕ → ℕ → Shifts3 → ℤ) (t0 : ℕ → ℕ → Shifts3) : ℕ → ℕ → Shifts3 :=
  if tileEmpty then t0
  else fun axis i =>
    if axis = 0 ∧ 4 ≤ i ∧ i ≤ 63 ∨ axis = 1 ∧ 6 ≤ i ∧ i ≤ 63
    then searchOneSize (B axis i) processing axis (t0 axis i)
    else t0 axis i

/-
Bookkeeping for the downsampling accumulator: the number of source samples
and the sum of squared luminances a destination pixel has received from
the direct accumulation after the first n source rows.  These are the
mathematical count and sum the packed uint64 encoding is supposed to hold
in its two 32-bit halves.
-/

/- A destination row is mapped if some source row lands on it inside the
tile. -/

def mappedRow (scaledY : ℕ → ℤ) (tileH : ℕ) (r : ℤ) : Prop :=
  ∃ y, y < TILE_HEIGHT ∧ scaledY y = r ∧ 0 ≤ r ∧ r < (tileH : ℤ)

/- Samples one source row contributes to destination pixel p. -/

def rowHitCount (scaledX : ℕ → ℤ) (tileW : ℕ) (y1 p : ℤ) : ℕ :=
  ((Finset.range TILE_WIDTH).filter fun x => y1 * tileW + scaledX x = p).card

def rowHitSum (lum : ℕ → ℕ → ℕ) (scaledX : ℕ → ℤ) (tileW : ℕ) (y0 : ℕ) (y1 p : ℤ) :
    ℕ :=
  ∑ x ∈ (Finset.range TILE_WIDTH).filter (fun x => y1 * tileW + scaledX x = p),
    (lum x y0) ^ 2

/- Direct samples and direct sum of squares accumulated at destination
pixel p by the first n source rows. -/

def directCount (scaledX scaledY : ℕ → ℤ) (tileW tileH n : ℕ) (p : ℤ) : ℕ :=
  ∑ y ∈ Finset.range n,
    if 0 ≤ scaledY y ∧ scaledY y < (tileH : ℤ)
    then rowHitCount scaledX tileW (scaledY y) p else 0

def directSum (lum : ℕ → ℕ → ℕ) (scaledX scaledY : ℕ → ℤ) (tileW tileH n : ℕ)
    (p : ℤ) : ℕ :=
  ∑ y ∈ Finset.range n,
    if 0 ≤ scaledY y ∧ scaledY y < (tileH : ℤ)
    then rowHitSum lum scaledX tileW y (scaledY y) p else 0

/- The per-prefix accumulator invariant: a pixel of a mapped destination
row holds exactly the packed direct count and direct sum of squares; a
pixel of an unmapped row (only ever written by the skipped-row
interpolation) is either untouched or holds a packed pair with count at
least 1, count at most twice the source pixel count, and sum bounded by
65025 per sample. -/

def AccInv (lum : ℕ → ℕ → ℕ) (scaledX scaledY : ℕ → ℤ) (tileW tileH n : ℕ)
    (g : Accum) : Prop :=
  ∀ r x : ℤ, 0 ≤ x → x < (tileW : ℤ) →
    (mappedRow scaledY tileH r → g (r * tileW + x) =
      directCount scaledX scaledY tileW tileH n (r * tileW + x) * 2 ^ 32 +
      directSum lum scaledX scaledY tileW tileH n (r * tileW + x)) ∧
    (¬ mappedRow scaledY tileH r → (g (r * tileW + x) = 0 ∨
      ∃ c s : ℕ, g (r * tileW + x) = c * 2 ^ 32 + s ∧ 1 ≤ c ∧
        c ≤ 2 * (TILE_WIDTH * TILE_HEIGHT) ∧ s ≤ 65025 * c))

/- Concrete map functions used by the C10 witness. -/

def zeroLum : ℕ → ℕ → ℕ := fun _ _ => 0

def witScaledX : ℕ → ℤ := fun x => ((x % 8 : ℕ) : ℤ)

def witScaledY : ℕ → ℤ := fun y => ((y / 29 : ℕ) : ℤ)

/-
Concrete instances used by witnesses and counterexamples.
-/

/- The all-transparent atlas surface: every pixel byte is 0, so every cell
is empty. -/

def zeroPng : Png := fun _ => 0

/- The all-zero per-cell shift entries. -/

def zeroShiftsFun : ℕ → ℕ → Shifts3 := fun _ _ => ((0 : ℤ), (0 : ℤ), (0 : ℤ))

/- A constant blur objective (per axis and size). -/

def constBlurOracle : ℕ → ℕ → Shifts3 → ℤ := fun _ _ _ => 1

/- A zero blur objective on shift vectors. -/

def zeroBlurOracle : Shifts3 → ℤ := fun _ => 0

/- A blur objective on shift vectors that drives the optimizer into a
midpoint-window recentering that increases the score: the landscape dips at
(0,0,5) and more deeply at (-5,0,5), so pass 1 moves the midpoint
parameter to 5 and pass 2 moves parameter 0 to -5; the midpoint window in
pass 2 is then centered at -2 and no longer contains 5. -/

def blurOracleC3 : Shifts3 → ℤ := fun s =>
  if s = ((0 : ℤ), (0 : ℤ), (0 : ℤ)) then 10
  else if s = ((0 : ℤ), (0 : ℤ), (5 : ℤ)) then 5
  else if s = ((-5 : ℤ), (0 : ℤ), (5 : ℤ)) then 1
  else 20

/-
Theorems.
-/

/- Characterization of the getPadding scan loop by induction on the
remaining fuel. -/

theorem getPaddingAux_spec (png : Png) (row column : ℕ) :
    ∀ n p, p ≤ getPaddingAux png row column n p ∧
      getPaddingAux png row column n p ≤ p + n ∧
      (∀ q, p ≤ q → q < getPaddingAux png row column n p →
        paddingRowHit png row column q = false) ∧
      (getPaddingAux png row column n p < p + n →
        paddingRowHit png row column (getPaddingAux png row column n p) = true) := by
  intro n
  induction n with
  | zero =>
    intro p
    have heq : getPaddingAux png row column 0 p = p := rfl
    rw [heq]
    exact ⟨Nat.le_refl p, by omega, fun q hq1 hq2 => absurd hq1 (by omega),
      fun hlt => absurd hlt (by omega)⟩
  | succ n ih =>
    intro p
    by_cases h : paddingRowHit png row column p = true
    · have heq : getPaddingAux png row column (n + 1) p = p := by
        simp [getPaddingAux, h]
      rw [heq]
      exact ⟨Nat.le_refl p, by omega, fun q hq1 hq2 => absurd hq1 (by omega),
        fun _ => h⟩
    · have hf : paddingRowHit png row column p = false := by
        revert h
        cases paddingRowHit png row column p <;> simp
      have heq : getPaddingAux png row column (n + 1) p =
          getPaddingAux png row column n (p + 1) := by
        simp [getPaddingAux, hf]
      obtain ⟨h1, h2, h3, h4⟩ := ih (p + 1)
      rw [heq]
      refine ⟨by omega, by omega, ?_, fun hlt => h4 (by omega)⟩
      intro q hq1 hq2
      rcases Nat.eq_or_lt_of_le hq1 with rfl | hlt
      · exact hf
      · exact h3 q (by omega) hq2

/-- C9: getPadding scans inward from the top row and the bottom row in
lock-step and returns the smallest row offset p such that row p or row
TILE_HEIGHT - p - 1 contains a non-transparent pixel; if no such offset
exists below TILE_HEIGHT / 4 it returns exactly TILE_HEIGHT / 4, so the
result always lies in [0, TILE_HEIGHT / 4]. -/
theorem c9_getPadding_spec (png : Png) (row column : ℕ) :
    getPadding png row column ≤ TILE_HEIGHT / 4 ∧
    (∀ q, q < getPadding png row column → paddingRowHit png row column q = false) ∧
    (getPadding png row column < TILE_HEIGHT / 4 →
      paddingRowHit png row column (getPadding png row column) = true) ∧
    ((∀ q, q < TILE_HEIGHT / 4 → paddingRowHit png row column q = false) →
      getPadding png row column = TILE_HEIGHT / 4) := by
  obtain ⟨h1, h2, h3, h4⟩ := getPaddingAux_spec png row column (TILE_HEIGHT / 4) 0
  rw [Nat.zero_add] at h2 h4
  unfold getPadding
  refine ⟨h2, fun q hq => h3 q (Nat.zero_le q) hq, h4, fun hall => ?_⟩
  by_contra hne
  have hlt : getPaddingAux png row column (TILE_HEIGHT / 4) 0 < TILE_HEIGHT / 4 :=
    Nat.lt_of_le_of_ne h2 hne
  have hhit := h4 hlt
  have hmiss := hall _ hlt
  rw [hmiss] at hhit
  exact Bool.noConfusion hhit

/- The destination cell width cut out by the integer grid division is
always the base width or the base width plus one. -/

theorem destTileWidth_bounds (outputWidth cols x : ℕ) (hc : 0 < cols) :
    outputWidth / cols ≤ destTileWidth outputWidth cols x ∧
    destTileWidth outputWidth cols x ≤ outputWidth / cols + 1 := by
  unfold destTileWidth
  have hx : (x + 1) * outputWidth = x * outputWidth + outputWidth := by ring
  rw [hx]
  have hlow := Nat.add_div_le_add_div (x * outputWidth) outputWidth cols
  have hup : (x * outputWidth + outputWidth) / cols ≤
      x * outputWidth / cols + outputWidth / cols + 1 := by
    rw [Nat.add_div hc]
    split
    · exact Nat.le_refl _
    · simp
  generalize (x * outputWidth + outputWidth) / cols = S at hlow hup ⊢
  generalize x * outputWidth / cols = A at hlow hup ⊢
  generalize outputWidth / cols = B at hlow hup ⊢
  omega

/-- C2: for destination cell sizes produced by the compositor grid division
(each the base tile dimension or the base tile dimension plus one), the
variant index computed by getTexture is one of the four variants, the tile
size of the chosen variant equals the requested destination size exactly,
and no other variant has that tile size: the selection is exhaustive and
exclusive. -/
theorem c2_variant_selection (outputWidth outputHeight cols rows x y : ℕ)
    (hc : 0 < cols) (hr : 0 < rows) :
    getTextureIndex (destTileWidth outputWidth cols x)
        (destTileHeight outputHeight rows y)
        (outputWidth / cols) (outputHeight / rows) < 4 ∧
    variantTileWidth (outputWidth / cols)
        (getTextureIndex (destTileWidth outputWidth cols x)
          (destTileHeight outputHeight rows y)
          (outputWidth / cols) (outputHeight / rows)) =
      destTileWidth outputWidth cols x ∧
    variantTileHeight (outputHeight / rows)
        (getTextureIndex (destTileWidth outputWidth cols x)
          (destTileHeight outputHeight rows y)
          (outputWidth / cols) (outputHeight / rows)) =
      destTileHeight outputHeight rows y ∧
    (∀ j, j < 4 →
      variantTileWidth (outputWidth / cols) j = destTileWidth outputWidth cols x →
      variantTileHeight (outputHeight / rows) j = destTileHeight outputHeight rows y →
      j = getTextureIndex (destTileWidth outputWidth cols x)
        (destTileHeight outputHeight rows y)
        (outputWidth / cols) (outputHeight / rows)) := by
  obtain ⟨hw1, hw2⟩ := destTileWidth_bounds outputWidth cols x hc
  have hh : outputHeight / rows ≤ destTileHeight outputHeight rows y ∧
      destTileHeight outputHeight rows y ≤ outputHeight / rows + 1 :=
    destTileWidth_bounds outputHeight rows y hr
  obtain ⟨hh1, hh2⟩ := hh
  generalize hgdw : destTileWidth outputWidth cols x = dw
  rw [hgdw] at hw1 hw2
  generalize hgdh : destTileHeight outputHeight rows y = dh
  rw [hgdh] at hh1 hh2
  generalize hgbw : outputWidth / cols = bw
  rw [hgbw] at hw1 hw2
  generalize hgbh : outputHeight / rows = bh
  rw [hgbh] at hh1 hh2
  unfold getTextureIndex variantTileWidth variantTileHeight
  by_cases h1 : bw < dw <;> by_cases h2 : bh < dh <;>
    (simp only [h1, h2, if_true, if_false]
     refine ⟨by norm_num, by simp <;> omega, by simp <;> omega, ?_⟩
     intro j hj e1 e2
     interval_cases j <;> simp at e1 e2 ⊢ <;> omega)

/-- C2 witness: a concrete 1013 x 771 output on a 100 x 34 grid, remainder
cell (3, 5). -/
theorem c2_variant_selection_witness :
    (0 < 100 ∧ 0 < 34) ∧
    variantTileWidth (1013 / 100)
        (getTextureIndex (destTileWidth 1013 100 3) (destTileHeight 771 34 5)
          (1013 / 100) (771 / 34)) =
      destTileWidth 1013 100 3 :=
  ⟨⟨by decide, by decide⟩,
    (c2_variant_selection 1013 771 100 34 3 5 (by decide) (by decide)).2.1⟩

/- Round trip of one signed byte through the memory dump. -/

theorem int8_roundtrip (z : ℤ) (h1 : -128 ≤ z) (h2 : z ≤ 127) :
    byteToInt8 (int8ToByte z) = z := by
  unfold byteToInt8 int8ToByte
  split <;> omega

/-- C6: writing the entire Shift Table wholesale to the cache file and
reading it back wholesale yields a table bit-identical to the one written,
for every table state representable in the int8_t entries. -/
theorem c6_cache_roundtrip (t : ShiftTable)
    (hrange : ∀ r c a s k, -128 ≤ t r c a s k ∧ t r c a s k ≤ 127) :
    ∀ r c a s k, readShiftCache (writeShiftCache t) r c a s k = t r c a s k := by
  intro r c a s k
  have hoff : shiftOffset r c a s k < SHIFT_TABLE_BYTES := by
    have hr := r.isLt
    have hc := c.isLt
    have ha := a.isLt
    have hs := s.isLt
    have hk := k.isLt
    simp only [shiftOffset, SHIFT_TABLE_BYTES, TILE_ROWS, TILE_COLS, MAX_TILE_SIZE] at *
    omega
  have hlen : (writeShiftCache t).length = SHIFT_TABLE_BYTES := List.length_ofFn _
  unfold readShiftCache
  rw [List.getD_eq_getElem (writeShiftCache t) 0 (by rw [hlen]; exact hoff)]
  unfold writeShiftCache
  rw [List.getElem_ofFn]
  have hr := r.isLt
  have hc := c.isLt
  have ha := a.isLt
  have hs := s.isLt
  have hk := k.isLt
  have e1 : shiftOffset r c a s k / (TILE_COLS * 2 * MAX_TILE_SIZE * 3) = r.val := by
    simp only [shiftOffset, TILE_COLS, MAX_TILE_SIZE, TILE_ROWS] at *
    omega
  have e2 : shiftOffset r c a s k / (2 * MAX_TILE_SIZE * 3) % TILE_COLS = c.val := by
    simp only [shiftOffset, TILE_COLS, MAX_TILE_SIZE, TILE_ROWS] at *
    omega
  have e3 : shiftOffset r c a s k / (MAX_TILE_SIZE * 3) % 2 = a.val := by
    simp only [shiftOffset, TILE_COLS, MAX_TILE_SIZE, TILE_ROWS] at *
    omega
  have e4 : shiftOffset r c a s k / 3 % MAX_TILE_SIZE = s.val := by
    simp only [shiftOffset, TILE_COLS, MAX_TILE_SIZE, TILE_ROWS] at *
    omega
  have e5 : shiftOffset r c a s k % 3 = k.val := by
    simp only [shiftOffset, TILE_COLS, MAX_TILE_SIZE, TILE_ROWS] at *
    omega
  simp only [e1, e2, e3, e4, e5, Fin.eta]
  exact int8_roundtrip _ (hrange r c a s k).1 (hrange r c a s k).2

/- The constant shift table used by the C6 witness. -/

def constShiftTable : ShiftTable := fun _ _ _ _ _ => (-5 : ℤ)

/-- C6 witness: the constant table with every entry -5 is in range and
survives the round trip at entry (0,0,0,0,0). -/
theorem c6_cache_roundtrip_witness :
    (∀ r c a s k, -128 ≤ constShiftTable r c a s k ∧ constShiftTable r c a s k ≤ 127) ∧
    readShiftCache (writeShiftCache constShiftTable)
        ⟨0, by decide⟩ ⟨0, by decide⟩ ⟨0, by decide⟩ ⟨0, by decide⟩ ⟨0, by decide⟩ =
      constShiftTable ⟨0, by decide⟩ ⟨0, by decide⟩ ⟨0, by decide⟩ ⟨0, by decide⟩
        ⟨0, by decide⟩ :=
  ⟨fun _ _ _ _ _ => ⟨by simp only [constShiftTable]; decide,
      by simp only [constShiftTable]; decide⟩,
    c6_cache_roundtrip constShiftTable
      (fun _ _ _ _ _ => ⟨by simp only [constShiftTable]; decide,
        by simp only [constShiftTable]; decide⟩)
      ⟨0, by decide⟩ ⟨0, by decide⟩ ⟨0, by decide⟩ ⟨0, by decide⟩ ⟨0, by decide⟩⟩

/-- C7 counterexample: the claim that Stretch cells are never searched is
false on the code.  Cell (16,2) has mode s; when its tileEmpty flag is
false, optimizeTiles runs the full search for it (the skip condition of the
loop is tileEmpty, not the mode), and with a constant blur objective the
search drives its width-5 horizontal shifts to (-5,-5,-10), not the
identity. -/
theorem c7_counterexample :
    TileProcessing 16 2 = 's' ∧
    optimizeCellShifts false (TileProcessing 16 2) constBlurOracle zeroShiftsFun 0 4 ≠
      zeroShiftsFun 0 4 := by
  constructor
  · decide
  · decide

/-- C7 amended: the Shift Optimizer skips exactly the cells whose tileEmpty
flag is set; for those it performs no search and leaves every shift entry
of the cell unchanged (hence at the zero initial values), whatever the
blur objective and the cell mode; Stretch-mode cells that are not empty
are searched like any other cell. -/
theorem c7_empty_cells_skip (processing : Char) (B : ℕ → ℕ → Shifts3 → ℤ)
    (t0 : ℕ → ℕ → Shifts3) (axis i : ℕ) :
    optimizeCellShifts true processing B t0 axis i = t0 axis i := rfl

/-- C4: floor-dust rendering is deterministic.  Two non-calibrating renders
of the empty floor cell (row 20, column 2) at the same destination tile
size produce the same pixel word at every destination pixel, whatever
ambient generator states the two calls start from, because the dust painter
overwrites the state with the fixed seed 1234567. -/
theorem c4_dust_deterministic (png : Png) (sh : ℕ → ℕ → Shifts3) (padding : ℕ)
    (baseTileWidth baseTileHeight : ℤ) (tileW tileH : ℕ) (state1 state2 : ℕ)
    (x y : ℕ) (hw : 2 < tileW) (hh : 2 < tileH) :
    prepareTilePixel png sh padding true baseTileWidth baseTileHeight
        tileW tileH 20 2 false state1 x y =
      prepareTilePixel png sh padding true baseTileWidth baseTileHeight
        tileW tileH 20 2 false state2 x y := rfl

/-- C4 witness: the determinism theorem applied to a 4 x 4 tile with two
different ambient states. -/
theorem c4_dust_deterministic_witness :
    (2 < 4 ∧ 2 < 4) ∧
    prepareTilePixel zeroPng zeroShiftsFun 0 true (-1) (-1) 4 4 20 2 false 0 1 1 =
      prepareTilePixel zeroPng zeroShiftsFun 0 true (-1) (-1) 4 4 20 2 false 999 1 1 :=
  ⟨⟨by decide, by decide⟩,
    c4_dust_deterministic zeroPng zeroShiftsFun 0 (-1) (-1) 4 4 0 999 1 1
      (by decide) (by decide)⟩

/- Specification of the probe loop accumulator: the result either is the
initial pair untouched, or records the score of its own shift; it never
exceeds the initial score, and it is a lower bound of every probed score. -/

theorem probeFold_spec (f : ℤ → ℤ) (l : List ℤ) (acc : ℤ × ℤ) :
    (probeFold f l acc = acc ∨ (probeFold f l acc).1 = f (probeFold f l acc).2) ∧
    (probeFold f l acc).1 ≤ acc.1 ∧
    ∀ v ∈ l, (probeFold f l acc).1 ≤ f v := by
  induction l generalizing acc with
  | nil => exact ⟨Or.inl rfl, le_refl _, fun v hv => absurd hv (List.not_mem_nil v)⟩
  | cons v t ih =>
    have hstep : probeFold f (v :: t) acc =
        probeFold f t (if f v < acc.1 then (f v, v) else acc) := rfl
    obtain ⟨ih1, ih2, ih3⟩ := ih (if f v < acc.1 then (f v, v) else acc)
    rw [hstep]
    refine ⟨?_, ?_, ?_⟩
    · rcases ih1 with h | h
      · rw [h]
        by_cases hv : f v < acc.1
        · rw [if_pos hv]
          exact Or.inr rfl
        · rw [if_neg hv]
          exact Or.inl rfl
      · exact Or.inr h
    · refine le_trans ih2 ?_
      by_cases hv : f v < acc.1
      · rw [if_pos hv]
        exact le_of_lt hv
      · rw [if_neg hv]
    · intro u hu
      rcases List.mem_cons.mp hu with rfl | hu
      · refine le_trans ih2 ?_
        by_cases hv : f u < acc.1
        · rw [if_pos hv]
        · rw [if_neg hv]
          exact le_of_not_lt hv
      · exact ih3 u hu

/- Every value of the probe window is probed. -/

theorem mem_probeList (mid v : ℤ) (h1 : mid - 5 ≤ v) (h2 : v ≤ mid + 5) :
    v ∈ probeList mid := by
  unfold probeList
  have hv : v = mid - 5 + ((v - (mid - 5)).toNat : ℤ) := by omega
  have hmem : (v - (mid - 5)).toNat ∈ List.range 11 := List.mem_range.mpr (by omega)
  rw [hv]
  exact List.mem_map_of_mem _ hmem

/- Writing the current value of a parameter back into the shift vector is
the identity. -/

theorem setShiftIdx_self (s : Shifts3) (idx : ℕ) :
    setShiftIdx s idx (getShiftIdx s idx) = s := by
  unfold setShiftIdx getShiftIdx
  match idx with
  | 0 => rfl
  | 1 => rfl
  | n + 2 => rfl

/-- C3 amended: a coordinate-descent step of the Shift Optimizer never
increases the blur score of the current configuration provided the value
the parameter holds on entry lies inside the probe window of the step;
this always holds for the two end-stop parameters, whose window is fixed
at [-5, 5] and whose entering value was chosen from that window, but the
midpoint parameter probes a window recentered at the current derived
midpoint, which can exclude its previous best.  The hypothesis on B
reflects that the blur score of the C code (a sum of at most tileW x tileH
sine values in [0, 1]) is always below the initial bestResult 1e20. -/
theorem c3_step_no_increase (B : Shifts3 → ℤ) (coupled : Bool) (s : Shifts3) (idx : ℕ)
    (hB : ∀ t, B t < 10 ^ 20)
    (hderiv : coupled = true → s.2.2 = (s.1 + s.2.1).tdiv 2)
    (hwin : midShift s idx - 5 ≤ getShiftIdx s idx ∧
      getShiftIdx s idx ≤ midShift s idx + 5) :
    B (stepIdx B coupled s idx) ≤ B s := by
  have hself : probeConfig coupled s idx (getShiftIdx s idx) = s := by
    unfold probeConfig
    rw [setShiftIdx_self]
    cases coupled with
    | false => rfl
    | true =>
      have h := hderiv rfl
      simp only [if_true]
      unfold deriveMid
      rw [← h]
  obtain ⟨h1, h2, h3⟩ := probeFold_spec
    (fun v => B (probeConfig coupled s idx v))
    (probeList (midShift s idx)) (10 ^ 20, 0)
  have hmem := mem_probeList (midShift s idx) (getShiftIdx s idx) hwin.1 hwin.2
  have hub := h3 _ hmem
  rw [hself] at hub
  have hne : (probeFold (fun v => B (probeConfig coupled s idx v))
      (probeList (midShift s idx)) (10 ^ 20, 0)).1 ≠ (10 ^ 20 : ℤ) := by
    intro heq
    rw [heq] at hub
    exact absurd (lt_of_lt_of_le (hB s) hub) (lt_irrefl _)
  rcases h1 with h | h
  · rw [h] at hne
    exact absurd rfl hne
  · have hstep : stepIdx B coupled s idx = probeConfig coupled s idx
        (probeFold (fun v => B (probeConfig coupled s idx v))
          (probeList (midShift s idx)) (10 ^ 20, 0)).2 := rfl
    rw [hstep, ← h]
    exact hub

/-- C3 witness: the amended step theorem applied to the zero objective at
the zero shift vector, parameter 0, uncoupled. -/
theorem c3_step_no_increase_witness :
    ((∀ t, zeroBlurOracle t < 10 ^ 20) ∧
      midShift ((0 : ℤ), (0 : ℤ), (0 : ℤ)) 0 - 5 ≤
        getShiftIdx ((0 : ℤ), (0 : ℤ), (0 : ℤ)) 0) ∧
    zeroBlurOracle (stepIdx zeroBlurOracle false ((0 : ℤ), (0 : ℤ), (0 : ℤ)) 0) ≤
      zeroBlurOracle ((0 : ℤ), (0 : ℤ), (0 : ℤ)) :=
  ⟨⟨fun t => by simp only [zeroBlurOracle]; decide, by decide⟩,
    c3_step_no_increase zeroBlurOracle false ((0 : ℤ), (0 : ℤ), (0 : ℤ)) 0
      (fun t => by simp only [zeroBlurOracle]; decide)
      (fun h => by cases h)
      ⟨by decide, by decide⟩⟩

/-- C3 counterexample: the claim as stated is false.  With the blur
landscape blurOracleC3, the optimizer run for an f cell on the horizontal
axis (three free parameters, three passes, exactly the searchOneSize step
sequence) reaches (-5, 0, 5) after five steps with blur 1; the sixth step
searches the midpoint parameter over the window recentered at
(-5 + 0) / 2 = -2, which no longer contains the previous best 5, and ends
at blur 20: the chosen shift increases the blur score over the previous
best for that parameter. -/
theorem c3_counterexample :
    (∀ t, blurOracleC3 t < 10 ^ 20) ∧
    searchOneSize blurOracleC3 'f' 0 ((0 : ℤ), (0 : ℤ), (0 : ℤ)) =
      runSteps blurOracleC3 false (optimizerSteps 3) ((0 : ℤ), (0 : ℤ), (0 : ℤ)) ∧
    optimizerSteps 3 = [0, 1, 2, 0, 1, 2, 0, 1, 2] ∧
    blurOracleC3 (runSteps blurOracleC3 false [0, 1, 2, 0, 1, 2]
        ((0 : ℤ), (0 : ℤ), (0 : ℤ))) >
      blurOracleC3 (runSteps blurOracleC3 false [0, 1, 2, 0, 1]
        ((0 : ℤ), (0 : ℤ), (0 : ℤ))) := by
  refine ⟨?_, ?_, ?_, ?_⟩
  · intro t
    unfold blurOracleC3
    split
    · decide
    · split
      · decide
      · split
        · decide
        · decide
  · rfl
  · decide
  · decide

/-- C8 amended: for every Text-mode cell and every glyph and fit height
(hence every destination tile size), the snapped vertical map - the map
the downsampler uses whenever the cell's vertical shift entries are zero -
places the x-height stop (map2) and the baseline stop (map3) at integer
destination pixel positions, with the baseline stop at least one full
pixel below the x-height stop, and re-derives the top-of-ascender stop
(map1) as exactly one third of the way from the top stop (map0) to the
x-height stop; the ShiftTable nudges are applied after this snap, so the
final map retains these properties exactly when the vertical shift entries
of the cell are zero. -/
theorem c8_text_snap (glyphHeight fitHeight : ℕ) :
    (∃ k : ℤ, (tSnap (vertMapsBase (vertStops 't' 0) fitHeight glyphHeight)).m2 =
      (k : ℚ)) ∧
    (∃ k : ℤ, (tSnap (vertMapsBase (vertStops 't' 0) fitHeight glyphHeight)).m3 =
      (k : ℚ)) ∧
    (tSnap (vertMapsBase (vertStops 't' 0) fitHeight glyphHeight)).m2 + 1 ≤
      (tSnap (vertMapsBase (vertStops 't' 0) fitHeight glyphHeight)).m3 ∧
    (tSnap (vertMapsBase (vertStops 't' 0) fitHeight glyphHeight)).m1 =
      (tSnap (vertMapsBase (vertStops 't' 0) fitHeight glyphHeight)).m0 +
      ((tSnap (vertMapsBase (vertStops 't' 0) fitHeight glyphHeight)).m2 -
        (tSnap (vertMapsBase (vertStops 't' 0) fitHeight glyphHeight)).m0) / 3 ∧
    vertMaps 't' 0 fitHeight glyphHeight ((0 : ℤ), (0 : ℤ), (0 : ℤ)) =
      tSnap (vertMapsBase (vertStops 't' 0) fitHeight glyphHeight) := by
  refine ⟨⟨round (vertMapsBase (vertStops 't' 0) fitHeight glyphHeight).m2, rfl⟩,
    ?_, ?_, rfl, ?_⟩
  · refine ⟨max (round (vertMapsBase (vertStops 't' 0) fitHeight glyphHeight).m2 + 1)
      (round ((vertMapsBase (vertStops 't' 0) fitHeight glyphHeight).m3 +
        ((round (vertMapsBase (vertStops 't' 0) fitHeight glyphHeight).m2 : ℤ) : ℚ) -
        (vertMapsBase (vertStops 't' 0) fitHeight glyphHeight).m2)), ?_⟩
    unfold tSnap
    push_cast
    rfl
  · unfold tSnap
    exact le_max_left _ _
  · simp [vertMaps, addVertShifts]

/-- C8 counterexample: the claim as stated, about the vertical coordinate
map used for downsampling, is false, because the ShiftTable nudges are
applied after the snap.  Cell (12, 0) is a Text-mode cell; at destination
height 20 (glyph height 20, fit height 20) with vertical shift entries
(0, 0, 1) - one tenth of a pixel on the x-height stop, as a loaded cache
file can and as the vertical search writes for other modes - the map used
for downsampling has its x-height stop at 71/10, not at an integer pixel
position. -/
theorem c8_counterexample :
    TileProcessing 12 0 = 't' ∧
    (vertMaps 't' 0 20 20 ((0 : ℤ), (0 : ℤ), (1 : ℤ))).m2 = 71 / 10 ∧
    ¬ ∃ k : ℤ, (vertMaps 't' 0 20 20 ((0 : ℤ), (0 : ℤ), (1 : ℤ))).m2 = (k : ℚ) := by
  have hbase : (vertMapsBase (vertStops 't' 0) 20 20).m2 = 215 / 29 := by
    unfold vertMapsBase vertStops
    rw [if_pos rfl]
    simp only [TILE_HEIGHT, TEXT_BASELINE, TEXT_X_HEIGHT]
    have htd : ((20 : ℤ) - (20 : ℤ)).tdiv 2 = 0 := by decide
    push_cast [htd]
    norm_num
  have hround : round ((215 : ℚ) / 29) = 7 := by
    rw [round_eq]
    apply Int.floor_eq_iff.mpr
    constructor <;> norm_num
  have hm2 : (vertMaps 't' 0 20 20 ((0 : ℤ), (0 : ℤ), (1 : ℤ))).m2 = 71 / 10 := by
    simp only [vertMaps, addVertShifts, tSnap, hbase, hround]
    norm_num
  refine ⟨by decide, hm2, ?_⟩
  rintro ⟨k, hk⟩
  rw [hm2] at hk
  have h10 : (71 : ℚ) = (k : ℚ) * 10 := by
    field_simp at hk
    linarith
  have : (71 : ℤ) = k * 10 := by exact_mod_cast h10
  omega

/- Uniqueness of the column-plus-row-times-width decomposition of a flat
buffer index. -/

theorem int_decomp_unique (W x1 y1 x2 y2 : ℤ) (hW : 0 < W)
    (h1 : 0 ≤ x1) (h2 : x1 < W) (h3 : 0 ≤ x2) (h4 : x2 < W)
    (heq : x1 + y1 * W = x2 + y2 * W) : x1 = x2 ∧ y1 = y2 := by
  have hm1 : (x1 + y1 * W) % W = x1 := by
    rw [Int.add_mul_emod_self]
    exact Int.emod_eq_of_lt h1 h2
  have hm2 : (x2 + y2 * W) % W = x2 := by
    rw [Int.add_mul_emod_self]
    exact Int.emod_eq_of_lt h3 h4
  have hx : x1 = x2 := by rw [← hm1, heq, hm2]
  refine ⟨hx, ?_⟩
  have hy : y1 * W = y2 * W := by omega
  exact mul_right_cancel₀ (ne_of_gt hW) hy

/- A fold of edge writes leaves every position outside its write set
untouched. -/

theorem foldl_writeNoiseAt_eq (f : ℕ → ℤ) (l : List ℕ) (gs : Accum × ℕ) (p : ℤ)
    (h : ∀ x ∈ l, f x ≠ p) :
    (l.foldl (fun a x => writeNoiseAt a (f x)) gs).1 p = gs.1 p := by
  induction l generalizing gs with
  | nil => rfl
  | cons v rest ih =>
    have hv : f v ≠ p := h v (List.mem_cons_self v rest)
    have hrest : ∀ x ∈ rest, f x ≠ p := fun x hx => h x (List.mem_cons_of_mem v hx)
    have hstep : ((v :: rest).foldl (fun a x => writeNoiseAt a (f x)) gs).1 p =
        (rest.foldl (fun a x => writeNoiseAt a (f x)) (writeNoiseAt gs (f v))).1 p := rfl
    rw [hstep, ih _ hrest]
    unfold writeNoiseAt
    simp only []
    rw [if_neg (fun hc => hv hc.symm)]

/- Every neighbor offset is nonzero and the offset list is closed under
negation (for any buffer width at least 3). -/

theorem neighborOffsets_spec (tileW : ℕ) (hW : 2 < tileW) :
    ∀ d ∈ neighborOffsets tileW, d ≠ 0 ∧ -d ∈ neighborOffsets tileW := by
  intro d hd
  simp only [neighborOffsets, List.mem_cons, List.not_mem_nil, or_false] at hd ⊢
  rcases hd with rfl | rfl | rfl | rfl | rfl | rfl | rfl | rfl <;>
    constructor <;> omega

/- The interior pass preserves the isolation invariant: if every lit
interior pixel has only unlit neighbors, the same holds after one
candidate step, because a pixel is lit only when all eight of its
neighbors are unlit and lighting it cannot create a lit neighbor for a
previously lit pixel (the offset list is closed under negation). -/

theorem dustInteriorStep_preserves (tileW tileH w : ℕ) (hW : 2 < tileW)
    (gs : Accum × ℕ) (e : ℕ)
    (h : ∀ p : ℤ, dustInteriorPos tileW tileH p → gs.1 p ≠ 0 →
      ∀ d ∈ neighborOffsets tileW, gs.1 (p + d) = 0) :
    ∀ p : ℤ, dustInteriorPos tileW tileH p → (dustInteriorStep tileW w gs e).1 p ≠ 0 →
      ∀ d ∈ neighborOffsets tileW, (dustInteriorStep tileW w gs e).1 (p + d) = 0 := by
  unfold dustInteriorStep
  by_cases hc : gs.1 ((1 : ℤ) + (e % w : ℕ) + ((1 : ℤ) + (e / w : ℕ)) * tileW + 1) = 0 ∧
      gs.1 ((1 : ℤ) + (e % w : ℕ) + ((1 : ℤ) + (e / w : ℕ)) * tileW - 1) = 0 ∧
      gs.1 ((1 : ℤ) + (e % w : ℕ) + ((1 : ℤ) + (e / w : ℕ)) * tileW + tileW) = 0 ∧
      gs.1 ((1 : ℤ) + (e % w : ℕ) + ((1 : ℤ) + (e / w : ℕ)) * tileW + tileW + 1) = 0 ∧
      gs.1 ((1 : ℤ) + (e % w : ℕ) + ((1 : ℤ) + (e / w : ℕ)) * tileW + tileW - 1) = 0 ∧
      gs.1 ((1 : ℤ) + (e % w : ℕ) + ((1 : ℤ) + (e / w : ℕ)) * tileW - tileW) = 0 ∧
      gs.1 ((1 : ℤ) + (e % w : ℕ) + ((1 : ℤ) + (e / w : ℕ)) * tileW - tileW + 1) = 0 ∧
      gs.1 ((1 : ℤ) + (e % w : ℕ) + ((1 : ℤ) + (e / w : ℕ)) * tileW - tileW - 1) = 0
  · rw [if_pos hc]
    have hguard : ∀ d ∈ neighborOffsets tileW,
        gs.1 ((1 : ℤ) + (e % w : ℕ) + ((1 : ℤ) + (e / w : ℕ)) * tileW + d) = 0 := by
      intro d hd
      obtain ⟨g1, g2, g3, g4, g5, g6, g7, g8⟩ := hc
      simp only [neighborOffsets, List.mem_cons, List.not_mem_nil, or_false] at hd
      rcases hd with rfl | rfl | rfl | rfl | rfl | rfl | rfl | rfl
      · exact g1
      · rw [show (1 : ℤ) + (e % w : ℕ) + ((1 : ℤ) + (e / w : ℕ)) * tileW + -1 =
          (1 : ℤ) + (e % w : ℕ) + ((1 : ℤ) + (e / w : ℕ)) * tileW - 1 from by ring]
        exact g2
      · exact g3
      · rw [show (1 : ℤ) + (e % w : ℕ) + ((1 : ℤ) + (e / w : ℕ)) * tileW +
          ((tileW : ℤ) + 1) =
          (1 : ℤ) + (e % w : ℕ) + ((1 : ℤ) + (e / w : ℕ)) * tileW + tileW + 1 from by
            ring]
        exact g4
      · rw [show (1 : ℤ) + (e % w : ℕ) + ((1 : ℤ) + (e / w : ℕ)) * tileW +
          ((tileW : ℤ) - 1) =
          (1 : ℤ) + (e % w : ℕ) + ((1 : ℤ) + (e / w : ℕ)) * tileW + tileW - 1 from by
            ring]
        exact g5
      · rw [show (1 : ℤ) + (e % w : ℕ) + ((1 : ℤ) + (e / w : ℕ)) * tileW +
          -(tileW : ℤ) =
          (1 : ℤ) + (e % w : ℕ) + ((1 : ℤ) + (e / w : ℕ)) * tileW - tileW from by ring]
        exact g6
      · rw [show (1 : ℤ) + (e % w : ℕ) + ((1 : ℤ) + (e / w : ℕ)) * tileW +
          (-(tileW : ℤ) + 1) =
          (1 : ℤ) + (e % w : ℕ) + ((1 : ℤ) + (e / w : ℕ)) * tileW - tileW + 1 from by
            ring]
        exact g7
      · rw [show (1 : ℤ) + (e % w : ℕ) + ((1 : ℤ) + (e / w : ℕ)) * tileW +
          (-(tileW : ℤ) - 1) =
          (1 : ℤ) + (e % w : ℕ) + ((1 : ℤ) + (e / w : ℕ)) * tileW - tileW - 1 from by
            ring]
        exact g8
    intro p hp hne d hd
    simp only [] at hne ⊢
    by_cases hqp : p = (1 : ℤ) + (e % w : ℕ) + ((1 : ℤ) + (e / w : ℕ)) * tileW
    · have hdne : ¬ p + d = (1 : ℤ) + (e % w : ℕ) + ((1 : ℤ) + (e / w : ℕ)) * tileW := by
        rw [hqp]
        have := (neighborOffsets_spec tileW hW d hd).1
        omega
      rw [if_neg hdne]
      rw [← hqp] at hguard
      exact hguard d hd
    · have hold : gs.1 p ≠ 0 := by
        rw [if_neg hqp] at hne
        exact hne
      by_cases hnp : p + d = (1 : ℤ) + (e % w : ℕ) + ((1 : ℤ) + (e / w : ℕ)) * tileW
      · exfalso
        obtain ⟨hd0, hdneg⟩ := neighborOffsets_spec tileW hW d hd
        have hpq : p = (1 : ℤ) + (e % w : ℕ) + ((1 : ℤ) + (e / w : ℕ)) * tileW + -d := by
          omega
        have := hguard (-d) hdneg
        rw [← hpq] at this
        exact hold this
      · rw [if_neg hnp]
        exact h p hp hold d hd
  · rw [if_neg hc]
    exact h

/- The isolation invariant is preserved by the whole interior pass. -/

theorem dustInterior_isolated (tileW tileH w : ℕ) (hW : 2 < tileW) :
    ∀ (idx : List ℕ) (gs : Accum × ℕ),
    (∀ p : ℤ, dustInteriorPos tileW tileH p → gs.1 p ≠ 0 →
      ∀ d ∈ neighborOffsets tileW, gs.1 (p + d) = 0) →
    ∀ p : ℤ, dustInteriorPos tileW tileH p →
      (dustInterior tileW w idx gs).1 p ≠ 0 →
      ∀ d ∈ neighborOffsets tileW, (dustInterior tileW w idx gs).1 (p + d) = 0 := by
  intro idx
  induction idx with
  | nil => exact fun gs h => h
  | cons e rest ih =>
    intro gs h
    have hstep : dustInterior tileW w (e :: rest) gs =
        dustInterior tileW w rest (dustInteriorStep tileW w gs e) := rfl
    rw [hstep]
    exact ih (dustInteriorStep tileW w gs e)
      (dustInteriorStep_preserves tileW tileH w hW gs e h)

/- The edge-stitching pass leaves every position outside its four write
families untouched. -/

theorem dustEdges_untouched (tileW w h : ℕ) (gs : Accum × ℕ) (p : ℤ)
    (h1 : ∀ x ∈ (List.range w).filter (fun x => x % 4 = 0), (x : ℤ) ≠ p)
    (h2 : ∀ y ∈ (List.range h).filter (fun y => y % 4 = 0), (y : ℤ) * tileW ≠ p)
    (h3 : ∀ x ∈ (List.range w).filter (fun x => x % 4 = 2),
      ((h : ℤ) + 1) * tileW + x ≠ p)
    (h4 : ∀ y ∈ (List.range h).filter (fun y => y % 4 = 2),
      (y : ℤ) * tileW + ((w : ℤ) + 1) ≠ p) :
    (dustEdges tileW w h gs).1 p = gs.1 p :=
  (foldl_writeNoiseAt_eq _ _ _ p h4).trans
    ((foldl_writeNoiseAt_eq _ _ _ p h3).trans
      ((foldl_writeNoiseAt_eq _ _ _ p h2).trans
        (foldl_writeNoiseAt_eq _ _ _ p h1)))

/- The edge-stitching pass writes only border positions, so starting from
the zero accumulator every interior position is still zero after it. -/

theorem dustEdges_interior_zero (tileW tileH : ℕ) (hW : 2 < tileW) (hH : 2 < tileH)
    (s : ℕ) (p : ℤ) (hp : dustInteriorPos tileW tileH p) :
    (dustEdges tileW (tileW - 2) (tileH - 2) (zeroAccum, s)).1 p = 0 := by
  obtain ⟨x1, y1, hx1, hx2, hy1, hy2, hpe⟩ := hp
  subst hpe
  have hWpos : (0 : ℤ) < (tileW : ℤ) := by omega
  refine (dustEdges_untouched tileW (tileW - 2) (tileH - 2) (zeroAccum, s) _
    ?_ ?_ ?_ ?_).trans rfl
  · intro a ha heq
    have haw : a < tileW - 2 := List.mem_range.mp (List.mem_filter.mp ha).1
    have heq2 : (a : ℤ) + 0 * (tileW : ℤ) = (x1 : ℤ) + (y1 : ℤ) * tileW := by
      rw [zero_mul, add_zero]
      exact heq
    obtain ⟨hcol, hrow⟩ := int_decomp_unique (tileW : ℤ) a 0 x1 y1 hWpos
      (by omega) (by omega) (by omega) (by omega) heq2
    omega
  · intro a ha heq
    have heq2 : (0 : ℤ) + (a : ℤ) * (tileW : ℤ) = (x1 : ℤ) + (y1 : ℤ) * tileW := by
      rw [zero_add]
      exact heq
    obtain ⟨hcol, hrow⟩ := int_decomp_unique (tileW : ℤ) 0 a x1 y1 hWpos
      (by omega) (by omega) (by omega) (by omega) heq2
    omega
  · intro a ha heq
    have haw : a < tileW - 2 := List.mem_range.mp (List.mem_filter.mp ha).1
    have heq2 : (a : ℤ) + (((tileH : ℤ) - 2) + 1) * (tileW : ℤ) =
        (x1 : ℤ) + (y1 : ℤ) * tileW := by
      have hcast : ((tileH - 2 : ℕ) : ℤ) = (tileH : ℤ) - 2 := by omega
      rw [← hcast]
      rw [show (a : ℤ) + (((tileH - 2 : ℕ) : ℤ) + 1) * (tileW : ℤ) =
        (((tileH - 2 : ℕ) : ℤ) + 1) * (tileW : ℤ) + a from by ring]
      exact heq
    obtain ⟨hcol, hrow⟩ := int_decomp_unique (tileW : ℤ) a ((tileH : ℤ) - 2 + 1) x1 y1
      hWpos (by omega) (by omega) (by omega) (by omega) heq2
    omega
  · intro a ha heq
    have heq2 : ((tileW : ℤ) - 2 + 1) + (a : ℤ) * (tileW : ℤ) =
        (x1 : ℤ) + (y1 : ℤ) * tileW := by
      have hcast : ((tileW - 2 : ℕ) : ℤ) = (tileW : ℤ) - 2 := by omega
      rw [show ((tileW : ℤ) - 2 + 1) + (a : ℤ) * (tileW : ℤ) =
        (a : ℤ) * (tileW : ℤ) + (((tileW : ℤ) - 2) + 1) from by ring, ← hcast]
      exact heq
    obtain ⟨hcol, hrow⟩ := int_decomp_unique (tileW : ℤ) ((tileW : ℤ) - 2 + 1) a x1 y1
      hWpos (by omega) (by omega) (by omega) (by omega) heq2
    omega

/-- C5: after the floor-dust fill of a non-calibrating render of the empty
floor cell (row 20, column 2) completes, every interior pixel of the
accumulator that is lit has no lit pixel among its 8 neighbors (edge
lattice pixels and other interior pixels alike): the lit interior pixels
are isolated single-pixel specks.  A pixel is lit only when all eight of
its neighbor entries are still zero, lighting it cannot retroactively give
a previously lit pixel a lit neighbor (the offset set is symmetric), and
the edge pass never writes the interior, so the interior starts all
unlit. -/
theorem c5_dust_specks_isolated (png : Png) (sh : ℕ → ℕ → Shifts3) (padding : ℕ)
    (baseTileWidth baseTileHeight : ℤ) (tileW tileH state : ℕ)
    (hw : 2 < tileW) (hh : 2 < tileH) :
    ∀ p : ℤ, dustInteriorPos tileW tileH p →
      prepareTileValues png sh padding true baseTileWidth baseTileHeight
        tileW tileH 20 2 false state p ≠ 0 →
      ∀ d ∈ neighborOffsets tileW,
        prepareTileValues png sh padding true baseTileWidth baseTileHeight
          tileW tileH 20 2 false state (p + d) = 0 := by
  have hpv : prepareTileValues png sh padding true baseTileWidth baseTileHeight
      tileW tileH 20 2 false state = dustFill state tileW tileH zeroAccum := by
    simp [prepareTileValues, hw, hh]
  rw [hpv]
  have hfill : dustFill state tileW tileH zeroAccum =
      (dustInterior tileW (tileW - 2)
        (fisherYates ((tileW - 2) * (tileH - 2))
          (dustEdges tileW (tileW - 2) (tileH - 2) (zeroAccum, 1234567)).2).1
        ((dustEdges tileW (tileW - 2) (tileH - 2) (zeroAccum, 1234567)).1,
          (fisherYates ((tileW - 2) * (tileH - 2))
            (dustEdges tileW (tileW - 2) (tileH - 2) (zeroAccum, 1234567)).2).2)).1 :=
    rfl
  rw [hfill]
  refine dustInterior_isolated tileW tileH (tileW - 2) hw _ _ ?_
  intro q hq hq0
  exact absurd (dustEdges_interior_zero tileW tileH hw hh 1234567 q hq) hq0

/-- C5 witness: the isolation theorem applied to a 6 x 7 destination tile
(interior pixel (1,1), offset 1), together with the fact that its
hypotheses hold there. -/
theorem c5_dust_specks_isolated_witness :
    (2 < 6 ∧ 2 < 7 ∧ dustInteriorPos 6 7 ((1 : ℤ) + (1 : ℤ) * 6) ∧
      (1 : ℤ) ∈ neighborOffsets 6) ∧
    (prepareTileValues zeroPng zeroShiftsFun 0 true (-1) (-1) 6 7 20 2 false 0
        ((1 : ℤ) + (1 : ℤ) * 6) ≠ 0 →
      prepareTileValues zeroPng zeroShiftsFun 0 true (-1) (-1) 6 7 20 2 false 0
        ((1 : ℤ) + (1 : ℤ) * 6 + 1) = 0) :=
  ⟨⟨by decide, by decide, ⟨1, 1, by decide, by decide, by decide, by decide, by decide⟩,
      by simp [neighborOffsets]⟩,
    fun hne => c5_dust_specks_isolated zeroPng zeroShiftsFun 0 (-1) (-1) 6 7 0
      (by decide) (by decide) ((1 : ℤ) + (1 : ℤ) * 6)
      ⟨1, 1, by decide, by decide, by decide, by decide, by decide⟩ hne 1
      (by simp [neighborOffsets])⟩

/- Converting an untouched accumulator entry yields alpha 0 for every
processing mode. -/

theorem tileValueToAlpha_zero (processing : Char) : tileValueToAlpha processing 0 = 0 := by
  unfold tileValueToAlpha
  simp

/-- C1 amended: for every atlas cell whose EmptyFlag is true, a
non-calibrating prepareTile writes a fully transparent result - the pixel
word with alpha 0 at every destination pixel - except for the FOUR
procedurally augmented cells: the floor-dust cell (20,2) and the three
wall-top cells (16,2), (21,1), (22,4). -/
theorem c1_empty_cells_transparent (png : Png) (sh : ℕ → ℕ → Shifts3)
    (padding : ℕ) (baseTileWidth baseTileHeight : ℤ)
    (tileW tileH row column state x y : ℕ)
    (hproc : ¬(row = 16 ∧ column = 2 ∨ row = 21 ∧ column = 1 ∨
      row = 22 ∧ column = 4 ∨ row = 20 ∧ column = 2)) :
    prepareTilePixel png sh padding true baseTileWidth baseTileHeight
      tileW tileH row column false state x y = pixelWord 0 := by
  have h16 : ¬(row = 16 ∧ column = 2) := fun h => hproc (Or.inl h)
  have h21 : ¬(row = 21 ∧ column = 1) := fun h => hproc (Or.inr (Or.inl h))
  have h22 : ¬(row = 22 ∧ column = 4) := fun h => hproc (Or.inr (Or.inr (Or.inl h)))
  have h20 : ¬(row = 20 ∧ column = 2) := fun h => hproc (Or.inr (Or.inr (Or.inr h)))
  have hval : ∀ q : ℤ, prepareTileValues png sh padding true baseTileWidth
      baseTileHeight tileW tileH row column false state q = 0 := by
    intro q
    simp only [prepareTileValues]
    split_ifs with hA hB hC hD hE hF <;> first | rfl | tauto
  unfold prepareTilePixel
  rw [hval, tileValueToAlpha_zero]

/-- C1 witness: the transparency theorem applied to the empty cell (0,0)
at a 4 x 4 tile. -/
theorem c1_empty_cells_transparent_witness :
    (¬((0 : ℕ) = 16 ∧ (0 : ℕ) = 2 ∨ (0 : ℕ) = 21 ∧ (0 : ℕ) = 1 ∨
      (0 : ℕ) = 22 ∧ (0 : ℕ) = 4 ∨ (0 : ℕ) = 20 ∧ (0 : ℕ) = 2)) ∧
    prepareTilePixel zeroPng zeroShiftsFun 0 true 4 4 4 4 0 0 false 0 1 1 =
      pixelWord 0 :=
  ⟨by decide,
    c1_empty_cells_transparent zeroPng zeroShiftsFun 0 4 4 4 4 0 0 0 1 1 (by decide)⟩

/- The wall-top wave entry at destination pixel (0,0) of a 4 x 4 tile with
2 x 2 waves: the sine phase is 0, the brightness is 1/2, and the stored
entry is 0x100000000 + round(65025 / 4) = 2^32 + 16256. -/

theorem waveEntry_at_origin : waveEntry 4 4 2 2 0 0 = 2 ^ 32 + 16256 := by
  unfold waveEntry
  have h1 : Real.sin (2 * Real.pi *
      (((0 : ℕ) : ℝ) / ((4 : ℕ) : ℝ) * ((2 : ℕ) : ℝ) +
       ((0 : ℕ) : ℝ) / ((4 : ℕ) : ℝ) * ((2 : ℕ) : ℝ))) / 2 + 1 / 2 = 1 / 2 := by
    norm_num
  rw [h1]
  show 2 ^ 32 + (round ((255 : ℝ) * 255 * (1 / 2) * (1 / 2))).toNat = 2 ^ 32 + 16256
  have hprod : (255 : ℝ) * 255 * (1 / 2) * (1 / 2) = 65025 / 4 := by norm_num
  rw [hprod]
  have hround : round ((65025 : ℝ) / 4) = 16256 := by
    rw [round_eq]
    have h2 : (65025 : ℝ) / 4 + 1 / 2 = 65027 / 4 := by norm_num
    rw [h2]
    apply Int.floor_eq_iff.mpr
    constructor <;> norm_num
  rw [hround]
  decide

/- The three wall-top cells and the floor-dust cell render non-transparent
pixels when empty: each writes a nonzero alpha at destination pixel (0,0)
of a 4 x 4 tile. -/

theorem c1_cell_16_2_lit :
    prepareTilePixel zeroPng zeroShiftsFun 0 true 4 4 4 4 16 2 false 0 0 0 ≠
      pixelWord 0 := by
  have hv : prepareTilePixel zeroPng zeroShiftsFun 0 true 4 4 4 4 16 2 false 0 0 0 =
      pixelWord (tileValueToAlpha (TileProcessing 16 2) (waveEntry 4 4 2 2 0 0)) := rfl
  rw [hv, waveEntry_at_origin]
  decide

theorem c1_cell_21_1_lit :
    prepareTilePixel zeroPng zeroShiftsFun 0 true 4 4 4 4 21 1 false 0 0 0 ≠
      pixelWord 0 := by
  have hv : prepareTilePixel zeroPng zeroShiftsFun 0 true 4 4 4 4 21 1 false 0 0 0 =
      pixelWord (tileValueToAlpha (TileProcessing 21 1) (waveEntry 4 4 2 2 0 0)) := rfl
  rw [hv, waveEntry_at_origin]
  decide

theorem c1_cell_22_4_lit :
    prepareTilePixel zeroPng zeroShiftsFun 0 true 4 4 4 4 22 4 false 0 0 0 ≠
      pixelWord 0 := by
  have hv : prepareTilePixel zeroPng zeroShiftsFun 0 true 4 4 4 4 22 4 false 0 0 0 =
      pixelWord (tileValueToAlpha (TileProcessing 22 4) (waveEntry 4 4 2 2 0 0)) := rfl
  rw [hv, waveEntry_at_origin]
  decide

theorem c1_cell_20_2_lit :
    prepareTilePixel zeroPng zeroShiftsFun 0 true 4 4 4 4 20 2 false 0 0 0 ≠
      pixelWord 0 := by decide

/-- C1 counterexample: the claim as stated, with THREE procedurally
augmented exception cells, is false: no set of at most three cells covers
all the exceptions, because the four distinct cells (16,2), (21,1),
(22,4), (20,2), each marked empty (all-transparent atlas), all render a
non-transparent pixel in a non-calibrating 4 x 4 render. -/
theorem c1_counterexample :
    ¬ ∃ S : Finset (ℕ × ℕ), S.card ≤ 3 ∧
      ∀ row column : ℕ, row < TILE_ROWS → column < TILE_COLS → (row, column) ∉ S →
        ∀ x y : ℕ, x < 4 → y < 4 →
          prepareTilePixel zeroPng zeroShiftsFun 0 true 4 4 4 4 row column
            false 0 x y = pixelWord 0 := by
  rintro ⟨S, hcard, hS⟩
  have h1 : ((16 : ℕ), (2 : ℕ)) ∈ S := by
    by_contra hmem
    exact c1_cell_16_2_lit (hS 16 2 (by decide) (by decide) hmem 0 0
      (by decide) (by decide))
  have h2 : ((21 : ℕ), (1 : ℕ)) ∈ S := by
    by_contra hmem
    exact c1_cell_21_1_lit (hS 21 1 (by decide) (by decide) hmem 0 0
      (by decide) (by decide))
  have h3 : ((22 : ℕ), (4 : ℕ)) ∈ S := by
    by_contra hmem
    exact c1_cell_22_4_lit (hS 22 4 (by decide) (by decide) hmem 0 0
      (by decide) (by decide))
  have h4 : ((20 : ℕ), (2 : ℕ)) ∈ S := by
    by_contra hmem
    exact c1_cell_20_2_lit (hS 20 2 (by decide) (by decide) hmem 0 0
      (by decide) (by decide))
  have hsub : ({(16, 2), (21, 1), (22, 4), (20, 2)} : Finset (ℕ × ℕ)) ⊆ S := by
    intro z hz
    simp only [Finset.mem_insert, Finset.mem_singleton] at hz
    rcases hz with rfl | rfl | rfl | rfl <;> assumption
  have hge := Finset.card_le_card hsub
  have hc4 : ({(16, 2), (21, 1), (22, 4), (20, 2)} : Finset (ℕ × ℕ)).card = 4 := by
    decide
  omega

/-
C10.  Safety of the packed accumulator.  Each direct sample adds
value^2 + 2^32 to one 64-bit slot: the upper 32 bits count samples, the
lower 32 bits hold the sum of squares.  The invariant below tracks both
halves exactly on mapped destination rows (as the direct count and sum of
squares of the processed prefix of source rows) and with bounds on the
interpolated rows, and yields that the normalization division
(slot mod 2^32) / (slot div 2^32) never divides by zero, provided the
slot is nonzero.
-/

theorem hitFilter_empty (scaledX : ℕ → ℤ) (tileW : ℕ)
    (hx : ∀ x, x < TILE_WIDTH → 0 ≤ scaledX x ∧ scaledX x < (tileW : ℤ))
    (y1 r x : ℤ) (hx0 : 0 ≤ x) (hx1 : x < (tileW : ℤ)) (hne : y1 ≠ r) :
    (Finset.range TILE_WIDTH).filter
      (fun x0 => y1 * tileW + scaledX x0 = r * tileW + x) = ∅ := by
  rw [Finset.filter_eq_empty_iff]
  intro x0 hx0mem heq
  obtain ⟨hs0, hs1⟩ := hx x0 (Finset.mem_range.mp hx0mem)
  have hW : (0 : ℤ) < (tileW : ℤ) := lt_of_le_of_lt hs0 hs1
  have hu := int_decomp_unique (tileW : ℤ) (scaledX x0) y1 x r hW hs0 hs1 hx0 hx1
    (by linarith)
  exact hne hu.2

theorem rowHitCount_le (scaledX : ℕ → ℤ) (tileW : ℕ) (y1 p : ℤ) :
    rowHitCount scaledX tileW y1 p ≤ TILE_WIDTH := by
  unfold rowHitCount
  calc ((Finset.range TILE_WIDTH).filter fun x => y1 * tileW + scaledX x = p).card
      ≤ (Finset.range TILE_WIDTH).card := Finset.card_filter_le _ _
    _ = TILE_WIDTH := Finset.card_range _

theorem rowHitSum_le (lum : ℕ → ℕ → ℕ) (scaledX : ℕ → ℤ) (tileW : ℕ)
    (hl : ∀ x y, lum x y ≤ 255) (y0 : ℕ) (y1 p : ℤ) :
    rowHitSum lum scaledX tileW y0 y1 p ≤ 65025 * rowHitCount scaledX tileW y1 p := by
  unfold rowHitSum rowHitCount
  have h1 : ∑ x ∈ (Finset.range TILE_WIDTH).filter
      (fun x => y1 * tileW + scaledX x = p), (lum x y0) ^ 2 ≤
      ∑ _x ∈ (Finset.range TILE_WIDTH).filter
      (fun x => y1 * tileW + scaledX x = p), 65025 := by
    apply Finset.sum_le_sum
    intro i _
    calc (lum i y0) ^ 2 ≤ 255 ^ 2 := Nat.pow_le_pow_left (hl i y0) 2
      _ = 65025 := by norm_num
  rw [Finset.sum_const, smul_eq_mul] at h1
  calc ∑ x ∈ (Finset.range TILE_WIDTH).filter
        (fun x => y1 * tileW + scaledX x = p), (lum x y0) ^ 2
      ≤ ((Finset.range TILE_WIDTH).filter
        (fun x => y1 * tileW + scaledX x = p)).card * 65025 := h1
    _ = 65025 * ((Finset.range TILE_WIDTH).filter
        (fun x => y1 * tileW + scaledX x = p)).card := mul_comm _ _

theorem directCount_le (scaledX scaledY : ℕ → ℤ) (tileW tileH n : ℕ)
    (hn : n ≤ TILE_HEIGHT) (p : ℤ) :
    directCount scaledX scaledY tileW tileH n p ≤ TILE_WIDTH * TILE_HEIGHT := by
  unfold directCount
  have h1 : ∀ y ∈ Finset.range n,
      (if 0 ≤ scaledY y ∧ scaledY y < (tileH : ℤ)
       then rowHitCount scaledX tileW (scaledY y) p else 0) ≤ TILE_WIDTH := by
    intro y _
    split_ifs
    · exact rowHitCount_le scaledX tileW (scaledY y) p
    · exact Nat.zero_le _
  have h2 := Finset.sum_le_sum h1
  have h3 : ∑ _y ∈ Finset.range n, TILE_WIDTH = n * TILE_WIDTH := by
    simp [Finset.sum_const]
  calc ∑ y ∈ Finset.range n,
        (if 0 ≤ scaledY y ∧ scaledY y < (tileH : ℤ)
         then rowHitCount scaledX tileW (scaledY y) p else 0)
      ≤ n * TILE_WIDTH := le_trans h2 (le_of_eq h3)
    _ ≤ TILE_HEIGHT * TILE_WIDTH := Nat.mul_le_mul_right _ hn
    _ = TILE_WIDTH * TILE_HEIGHT := mul_comm _ _

theorem directSum_le (lum : ℕ → ℕ → ℕ) (scaledX scaledY : ℕ → ℤ)
    (tileW tileH n : ℕ) (hl : ∀ x y, lum x y ≤ 255) (p : ℤ) :
    directSum lum scaledX scaledY tileW tileH n p ≤
      65025 * directCount scaledX scaledY tileW tileH n p := by
  unfold directSum directCount
  rw [Finset.mul_sum]
  apply Finset.sum_le_sum
  intro y _
  split_ifs
  · exact rowHitSum_le lum scaledX tileW hl y (scaledY y) p
  · simp

theorem downscaleRow_apply (lum : ℕ → ℕ → ℕ) (scaledX : ℕ → ℤ) (tileW : ℕ)
    (g : Accum) (y0 : ℕ) (y1 p : ℤ) :
    downscaleRow lum scaledX tileW g y0 y1 p =
      g p + (rowHitCount scaledX tileW y1 p * 2 ^ 32 +
        rowHitSum lum scaledX tileW y0 y1 p) := by
  unfold downscaleRow rowHitCount rowHitSum
  rw [Finset.sum_add_distrib, Finset.sum_const, smul_eq_mul]
  ring

theorem directCount_succ (scaledX scaledY : ℕ → ℤ) (tileW tileH n : ℕ) (p : ℤ) :
    directCount scaledX scaledY tileW tileH (n + 1) p =
      directCount scaledX scaledY tileW tileH n p +
      (if 0 ≤ scaledY n ∧ scaledY n < (tileH : ℤ)
       then rowHitCount scaledX tileW (scaledY n) p else 0) := by
  unfold directCount
  exact Finset.sum_range_succ _ n

theorem directSum_succ (lum : ℕ → ℕ → ℕ) (scaledX scaledY : ℕ → ℤ)
    (tileW tileH n : ℕ) (p : ℤ) :
    directSum lum scaledX scaledY tileW tileH (n + 1) p =
      directSum lum scaledX scaledY tileW tileH n p +
      (if 0 ≤ scaledY n ∧ scaledY n < (tileH : ℤ)
       then rowHitSum lum scaledX tileW n (scaledY n) p else 0) := by
  unfold directSum
  exact Finset.sum_range_succ _ n

theorem interp_range_iff (tileW : ℕ) (hW : (0 : ℤ) < (tileW : ℤ)) (y1 r x : ℤ)
    (hx0 : 0 ≤ x) (hx1 : x < (tileW : ℤ)) :
    ((y1 - 1) * tileW ≤ r * tileW + x ∧ r * tileW + x < y1 * tileW) ↔
      r = y1 - 1 := by
  constructor
  · rintro ⟨h1, h2⟩
    have hlt : r < y1 := by
      have h3 : r * (tileW : ℤ) < y1 * tileW := by linarith
      exact lt_of_mul_lt_mul_right h3 (le_of_lt hW)
    have hge : y1 - 1 ≤ r := by
      by_contra hc
      push_neg at hc
      have h4 : r + 1 ≤ y1 - 1 := by omega
      have h5 : (r + 1) * (tileW : ℤ) ≤ (y1 - 1) * tileW :=
        mul_le_mul_of_nonneg_right h4 (le_of_lt hW)
      have h6 : r * (tileW : ℤ) + tileW = (r + 1) * tileW := by ring
      linarith
    omega
  · rintro rfl
    refine ⟨by linarith, ?_⟩
    have h6 : (y1 - 1) * (tileW : ℤ) + tileW = y1 * tileW := by ring
    linarith

theorem target_not_mapped (scaledY : ℕ → ℤ) (tileH : ℕ)
    (hmono : ∀ y1 y2, y1 < TILE_HEIGHT → y2 < TILE_HEIGHT → y1 ≤ y2 →
      0 ≤ scaledY y1 → 0 ≤ scaledY y2 → scaledY y1 ≤ scaledY y2)
    (n : ℕ) (hn : n < TILE_HEIGHT) (h1n : 1 ≤ n)
    (hprev : scaledY (n - 1) = scaledY n - 2)
    (h2 : 2 ≤ scaledY n) (hlt : scaledY n < (tileH : ℤ)) :
    ¬ mappedRow scaledY tileH (scaledY n - 1) := by
  rintro ⟨y, hy, hval, hge0, _⟩
  by_cases hcase : y ≤ n - 1
  · have h := hmono y (n - 1) hy (by omega) hcase (by omega) (by omega)
    omega
  · have h := hmono n y hn hy (by omega) (by omega) (by omega)
    omega

theorem downscaleStep_eq (lum : ℕ → ℕ → ℕ) (scaledX scaledY : ℕ → ℤ)
    (tileW tileH : ℕ) (g : Accum) (y0 : ℕ) :
    downscaleStep lum scaledX scaledY tileW tileH g y0 =
      if 0 ≤ scaledY y0 ∧ scaledY y0 < (tileH : ℤ) then
        (if 2 ≤ scaledY y0 ∧ 1 ≤ y0 ∧ scaledY (y0 - 1) = scaledY y0 - 2
         then interpRow tileW
           (downscaleRow lum scaledX tileW g y0 (scaledY y0)) (scaledY y0)
         else downscaleRow lum scaledX tileW g y0 (scaledY y0))
      else g := rfl

theorem accInv_zero (lum : ℕ → ℕ → ℕ) (scaledX scaledY : ℕ → ℤ)
    (tileW tileH : ℕ) :
    AccInv lum scaledX scaledY tileW tileH 0 zeroAccum := by
  intro r x _ _
  constructor
  · intro _
    simp [zeroAccum, directCount, directSum]
  · intro _
    left
    rfl

theorem accInv_step (lum : ℕ → ℕ → ℕ) (scaledX scaledY : ℕ → ℤ)
    (tileW tileH : ℕ)
    (hx : ∀ x, x < TILE_WIDTH → 0 ≤ scaledX x ∧ scaledX x < (tileW : ℤ))
    (hl : ∀ x y, lum x y ≤ 255)
    (hmono : ∀ y1 y2, y1 < TILE_HEIGHT → y2 < TILE_HEIGHT → y1 ≤ y2 →
      0 ≤ scaledY y1 → 0 ≤ scaledY y2 → scaledY y1 ≤ scaledY y2)
    (n : ℕ) (hn : n < TILE_HEIGHT) (g : Accum)
    (hg : AccInv lum scaledX scaledY tileW tileH n g) :
    AccInv lum scaledX scaledY tileW tileH (n + 1)
      (downscaleStep lum scaledX scaledY tileW tileH g n) := by
  rw [downscaleStep_eq]
  by_cases hr : 0 ≤ scaledY n ∧ scaledY n < (tileH : ℤ)
  · rw [if_pos hr]
    have hg1 : AccInv lum scaledX scaledY tileW tileH (n + 1)
        (downscaleRow lum scaledX tileW g n (scaledY n)) := by
      intro r x hx0 hx1
      obtain ⟨hA, hB⟩ := hg r x hx0 hx1
      constructor
      · intro hm
        rw [downscaleRow_apply, hA hm, directCount_succ, directSum_succ,
          if_pos hr, if_pos hr]
        ring
      · intro hm
        have hne : scaledY n ≠ r := by
          intro hcontra
          exact hm ⟨n, hn, hcontra, hcontra ▸ hr.1, hcontra ▸ hr.2⟩
        have hemp := hitFilter_empty scaledX tileW hx (scaledY n) r x hx0 hx1 hne
        have heq : downscaleRow lum scaledX tileW g n (scaledY n)
            (r * tileW + x) = g (r * tileW + x) := by
          rw [downscaleRow_apply]
          unfold rowHitCount rowHitSum
          rw [hemp]
          simp
        rw [heq]
        exact hB hm
    by_cases hi : 2 ≤ scaledY n ∧ 1 ≤ n ∧ scaledY (n - 1) = scaledY n - 2
    · rw [if_pos hi]
      intro r x hx0 hx1
      have hW : (0 : ℤ) < (tileW : ℤ) := by
        obtain ⟨h0, h1⟩ := hx 0 (by decide)
        exact lt_of_le_of_lt h0 h1
      by_cases hrow : r = scaledY n - 1
      · subst hrow
        have hnm : ¬ mappedRow scaledY tileH (scaledY n - 1) :=
          target_not_mapped scaledY tileH hmono n hn hi.2.1 hi.2.2 hi.1 hr.2
        refine ⟨fun hm => absurd hm hnm, fun _ => ?_⟩
        have hin : (scaledY n - 1) * (tileW : ℤ) ≤
            (scaledY n - 1) * tileW + x ∧
            (scaledY n - 1) * tileW + x < scaledY n * tileW := by
          have := (interp_range_iff tileW hW (scaledY n) (scaledY n - 1) x
            hx0 hx1).mpr rfl
          constructor
          · linarith [this.1]
          · exact this.2
        have hval : interpRow tileW
            (downscaleRow lum scaledX tileW g n (scaledY n)) (scaledY n)
            ((scaledY n - 1) * tileW + x) =
            downscaleRow lum scaledX tileW g n (scaledY n)
              ((scaledY n - 1) * tileW + x - tileW) +
            downscaleRow lum scaledX tileW g n (scaledY n)
              ((scaledY n - 1) * tileW + x + tileW) := by
          unfold interpRow
          rw [if_pos ⟨by linarith [hin.1], hin.2⟩]
        have e1 : (scaledY n - 1) * (tileW : ℤ) + x - tileW =
            (scaledY n - 2) * tileW + x := by ring
        have e2 : (scaledY n - 1) * (tileW : ℤ) + x + tileW =
            scaledY n * tileW + x := by ring
        have hmA : mappedRow scaledY tileH (scaledY n - 2) :=
          ⟨n - 1, by omega, hi.2.2, by omega, by omega⟩
        have hmB : mappedRow scaledY tileH (scaledY n) := ⟨n, hn, rfl, hr.1, hr.2⟩
        have hA1 := (hg1 (scaledY n - 2) x hx0 hx1).1 hmA
        have hA2 := (hg1 (scaledY n) x hx0 hx1).1 hmB
        have hcleA := directCount_le scaledX scaledY tileW tileH (n + 1)
          (by omega) ((scaledY n - 2) * tileW + x)
        have hcleB := directCount_le scaledX scaledY tileW tileH (n + 1)
          (by omega) (scaledY n * tileW + x)
        have hsleA := directSum_le lum scaledX scaledY tileW tileH (n + 1) hl
          ((scaledY n - 2) * tileW + x)
        have hsleB := directSum_le lum scaledX scaledY tileW tileH (n + 1) hl
          (scaledY n * tileW + x)
        set cA := directCount scaledX scaledY tileW tileH (n + 1)
          ((scaledY n - 2) * tileW + x) with hcAdef
        set sA := directSum lum scaledX scaledY tileW tileH (n + 1)
          ((scaledY n - 2) * tileW + x) with hsAdef
        set cB := directCount scaledX scaledY tileW tileH (n + 1)
          (scaledY n * tileW + x) with hcBdef
        set sB := directSum lum scaledX scaledY tileW tileH (n + 1)
          (scaledY n * tileW + x) with hsBdef
        by_cases hz : cA + cB = 0
        · left
          rw [hval, e1, e2, hA1, hA2]
          have hsA0 : sA = 0 := by omega
          have hsB0 : sB = 0 := by omega
          omega
        · right
          refine ⟨cA + cB, sA + sB, ?_, by omega, ?_, ?_⟩
          · rw [hval, e1, e2, hA1, hA2]
            ring
          · calc cA + cB ≤ TILE_WIDTH * TILE_HEIGHT + TILE_WIDTH * TILE_HEIGHT :=
                Nat.add_le_add hcleA hcleB
              _ = 2 * (TILE_WIDTH * TILE_HEIGHT) := by ring
          · calc sA + sB ≤ 65025 * cA + 65025 * cB := Nat.add_le_add hsleA hsleB
              _ = 65025 * (cA + cB) := by ring
      · have hnin : ¬((scaledY n - 1) * (tileW : ℤ) ≤ r * tileW + x ∧
            r * tileW + x < scaledY n * tileW) := by
          rw [interp_range_iff tileW hW (scaledY n) r x hx0 hx1]
          exact hrow
        have heq2 : interpRow tileW
            (downscaleRow lum scaledX tileW g n (scaledY n)) (scaledY n)
            (r * tileW + x) =
            downscaleRow lum scaledX tileW g n (scaledY n) (r * tileW + x) := by
          unfold interpRow
          rw [if_neg hnin]
        refine ⟨fun hm => ?_, fun hm => ?_⟩
        · rw [heq2]
          exact (hg1 r x hx0 hx1).1 hm
        · rw [heq2]
          exact (hg1 r x hx0 hx1).2 hm
    · rw [if_neg hi]
      exact hg1
  · rw [if_neg hr]
    intro r x hx0 hx1
    obtain ⟨hA, hB⟩ := hg r x hx0 hx1
    refine ⟨fun hm => ?_, hB⟩
    rw [directCount_succ, directSum_succ, if_neg hr, if_neg hr]
    simpa using hA hm

theorem accInv_N (lum : ℕ → ℕ → ℕ) (scaledX scaledY : ℕ → ℤ) (tileW tileH : ℕ)
    (hx : ∀ x, x < TILE_WIDTH → 0 ≤ scaledX x ∧ scaledX x < (tileW : ℤ))
    (hl : ∀ x y, lum x y ≤ 255)
    (hmono : ∀ y1 y2, y1 < TILE_HEIGHT → y2 < TILE_HEIGHT → y1 ≤ y2 →
      0 ≤ scaledY y1 → 0 ≤ scaledY y2 → scaledY y1 ≤ scaledY y2) :
    ∀ n, n ≤ TILE_HEIGHT →
      AccInv lum scaledX scaledY tileW tileH n
        (downscaleAccumN lum scaledX scaledY tileW tileH n)
  | 0, _ => accInv_zero lum scaledX scaledY tileW tileH
  | n + 1, h => accInv_step lum scaledX scaledY tileW tileH hx hl hmono n
      (by omega) _
      (accInv_N lum scaledX scaledY tileW tileH hx hl hmono n (by omega))

/-- C10: for every luminance function bounded by 255, every column map into
the destination width, and every monotone row map (the property the code's
scaledY construction from increasing piecewise-linear stop maps provides),
every accumulator slot of the destination tile is either zero or packs a
sample count of at least 1 in its upper 32 bits with the sum of squared
luminances in its lower 32 bits bounded by 65025 per sample and no overflow
of the 64-bit slot, so the normalization division by the count field never
divides by zero. -/
theorem c10_accumulator_normalization_safe
    (lum : ℕ → ℕ → ℕ) (scaledX scaledY : ℕ → ℤ) (tileW tileH : ℕ)
    (hl : ∀ x y, lum x y ≤ 255)
    (hx : ∀ x, x < TILE_WIDTH → 0 ≤ scaledX x ∧ scaledX x < (tileW : ℤ))
    (hmono : ∀ y1 y2, y1 < TILE_HEIGHT → y2 < TILE_HEIGHT → y1 ≤ y2 →
      0 ≤ scaledY y1 → 0 ≤ scaledY y2 → scaledY y1 ≤ scaledY y2)
    (p : ℤ) (hp0 : 0 ≤ p) (hp1 : p < (tileW : ℤ) * tileH) :
    downscaleAccum lum scaledX scaledY tileW tileH p = 0 ∨
      (1 ≤ downscaleAccum lum scaledX scaledY tileW tileH p / 2 ^ 32 ∧
       downscaleAccum lum scaledX scaledY tileW tileH p % 2 ^ 32 ≤
         65025 * (downscaleAccum lum scaledX scaledY tileW tileH p / 2 ^ 32) ∧
       downscaleAccum lum scaledX scaledY tileW tileH p < 2 ^ 64) := by
  have hW : (0 : ℤ) < (tileW : ℤ) := by
    by_contra hc
    push_neg at hc
    have hH : (0 : ℤ) ≤ (tileH : ℤ) := Int.natCast_nonneg _
    nlinarith
  have hInv := accInv_N lum scaledX scaledY tileW tileH hx hl hmono
    TILE_HEIGHT le_rfl
  set r := p / (tileW : ℤ) with hrdef
  set x := p % (tileW : ℤ) with hxdef
  have hx0 : 0 ≤ x := Int.emod_nonneg p (ne_of_gt hW)
  have hx1 : x < (tileW : ℤ) := Int.emod_lt_of_pos p hW
  have hdec : p = r * tileW + x := by
    rw [hrdef, hxdef, mul_comm]
    exact (Int.ediv_add_emod p tileW).symm
  obtain ⟨hA, hB⟩ := hInv r x hx0 hx1
  have hDA : downscaleAccum lum scaledX scaledY tileW tileH =
      downscaleAccumN lum scaledX scaledY tileW tileH TILE_HEIGHT := rfl
  rw [hDA, hdec]
  by_cases hm : mappedRow scaledY tileH r
  · have h1 := hA hm
    have hcle := directCount_le scaledX scaledY tileW tileH TILE_HEIGHT
      le_rfl (r * tileW + x)
    have hsle := directSum_le lum scaledX scaledY tileW tileH TILE_HEIGHT hl
      (r * tileW + x)
    set c := directCount scaledX scaledY tileW tileH TILE_HEIGHT
      (r * tileW + x) with hcdef
    set s := directSum lum scaledX scaledY tileW tileH TILE_HEIGHT
      (r * tileW + x) with hsdef
    have hcle29 : c ≤ 29696 := by
      have h29 : TILE_WIDTH * TILE_HEIGHT = 29696 := by decide
      omega
    rw [h1]
    omega
  · rcases hB hm with h0 | ⟨c, s, hcs, hc1, hcle, hsle⟩
    · left
      exact h0
    · right
      rw [hcs]
      have hcle59 : c ≤ 59392 := by
        have h59 : 2 * (TILE_WIDTH * TILE_HEIGHT) = 59392 := by decide
        omega
      omega

/-- Witness: the hypotheses of c10_accumulator_normalization_safe hold for
the concrete maps witScaledX and witScaledY into an 8x8 destination tile,
and the conclusion holds at slot 5. -/
theorem c10_accumulator_normalization_safe_witness :
    (∀ x, x < TILE_WIDTH →
      0 ≤ witScaledX x ∧ witScaledX x < ((8 : ℕ) : ℤ)) ∧
    (downscaleAccum zeroLum witScaledX witScaledY 8 8 5 = 0 ∨
      (1 ≤ downscaleAccum zeroLum witScaledX witScaledY 8 8 5 / 2 ^ 32 ∧
       downscaleAccum zeroLum witScaledX witScaledY 8 8 5 % 2 ^ 32 ≤
         65025 * (downscaleAccum zeroLum witScaledX witScaledY 8 8 5 / 2 ^ 32) ∧
       downscaleAccum zeroLum witScaledX witScaledY 8 8 5 < 2 ^ 64)) :=
  ⟨by decide,
    c10_accumulator_normalization_safe zeroLum witScaledX witScaledY 8 8
      (fun _ _ => Nat.zero_le 255)
      (by decide)
      (fun y1 y2 _ _ h _ _ => by
        simp only [witScaledY]
        exact_mod_cast Nat.div_le_div_right h)
      5 (by decide) (by decide)⟩

end Tiles
